import Mathlib

set_option linter.unusedSectionVars false
set_option linter.unusedVariables false

/-!
Verification of the `annotated-sfm` structural functional model (SFM)
evaluation engine.

The Python sources (`sfm/model.py`, `sfm/inference.py`, `sfm/partial.py`)
are shallowly embedded below.  Python dictionaries are embedded as
association lists (`Assignment`), which keep both the key-value mapping
and the key set observable; Python dictionary equality (`==`) is
key-by-key value equality, embedded as pointwise equality of `dget`.
The networkx graph object is an external collaborator; the embedding
exposes exactly the read-only queries the engine uses (node list,
predecessor lists, topological order, acyclicity flag), and the
`SFM.WF` predicate records the guarantees those queries provide for a
directed acyclic graph.
-/

/-- Association-list embedding of a Python `dict`.  Keys are unique in
every dictionary the code constructs (`NodupKeys`). -/
abbrev Assignment (ν α : Type) := List (ν × α)

variable {ν : Type} [DecidableEq ν] {α : Type} [DecidableEq α]

/-- Dictionary lookup, `w[k]` as an `Option` (`none` = `KeyError`). -/
def dget : Assignment ν α → ν → Option α
  | [], _ => none
  | (k, v) :: rest, x => if k = x then some v else dget rest x

/-- Dictionary membership test, `k in w`. -/
def dcontains (w : Assignment ν α) (k : ν) : Bool :=
  (dget w k).isSome

/-- Dictionary write `w[k] = v`: overwrite in place if the key exists
(keeping its position, as CPython does), else append. -/
def dinsert : Assignment ν α → ν → α → Assignment ν α
  | [], k, v => [(k, v)]
  | (k', v') :: rest, k, v =>
    if k' = k then (k', v) :: rest else (k', v') :: dinsert rest k v

/-- Total lookup used where the Python code indexes a key that its
preconditions guarantee to be present. -/
def dget! [Inhabited α] (w : Assignment ν α) (k : ν) : α :=
  (dget w k).getD default

/-- The key list of a dictionary. -/
def dkeys (w : Assignment ν α) : List ν := w.map Prod.fst

/-- Key uniqueness: every dictionary built by the engine satisfies it. -/
def NodupKeys (w : Assignment ν α) : Prop := (dkeys w).Nodup

theorem dget_dinsert (w : Assignment ν α) (k : ν) (v : α) (x : ν) :
    dget (dinsert w k v) x = if k = x then some v else dget w x := by
  induction w with
  | nil => simp [dinsert, dget]
  | cons kv rest ih =>
    obtain ⟨k', v'⟩ := kv
    by_cases hk : k' = k
    · subst hk
      by_cases hx : k' = x <;> simp [dinsert, dget, hx]
    · by_cases hx : k' = x
      · subst hx
        have : ¬ k = k' := fun h => hk h.symm
        simp [dinsert, dget, hk, this]
      · simp [dinsert, dget, hk, hx, ih]

theorem dcontains_iff_isSome (w : Assignment ν α) (k : ν) :
    dcontains w k = true ↔ (dget w k).isSome := by
  simp [dcontains]

theorem dget_eq_none_of_not_dcontains {w : Assignment ν α} {k : ν}
    (h : ¬ dcontains w k = true) : dget w k = none := by
  simp [dcontains] at h
  exact Option.eq_none_iff_forall_not_mem.mpr (fun v hv => by simp [h] at hv)

theorem dcontains_of_dget_eq_some {w : Assignment ν α} {k : ν} {v : α}
    (h : dget w k = some v) : dcontains w k = true := by
  simp [dcontains, h]

theorem mem_dkeys_iff_dcontains (w : Assignment ν α) (k : ν) :
    k ∈ dkeys w ↔ dcontains w k = true := by
  induction w with
  | nil => simp [dkeys, dcontains, dget]
  | cons kv rest ih =>
    obtain ⟨k', v'⟩ := kv
    by_cases hk : k' = k
    · subst hk
      simp [dkeys, dcontains, dget]
    · have hk' : ¬ k = k' := fun h => hk h.symm
      simp only [dkeys, List.map_cons, List.mem_cons, dcontains, dget, hk,
        if_false] at ih ⊢
      constructor
      · rintro (h | h)
        · exact absurd h hk'
        · exact ih.mp h
      · intro h
        exact Or.inr (ih.mpr h)

theorem dget_eq_some_getD [Inhabited α] {w : Assignment ν α} {k : ν}
    (h : dcontains w k = true) : dget w k = some (dget! w k) := by
  simp [dcontains] at h
  obtain ⟨v, hv⟩ := Option.isSome_iff_exists.mp h
  simp [dget!, hv]

theorem dkeys_dinsert (w : Assignment ν α) (k : ν) (v : α) :
    dkeys (dinsert w k v) =
      if k ∈ dkeys w then dkeys w else dkeys w ++ [k] := by
  induction w with
  | nil => simp [dinsert, dkeys]
  | cons kv rest ih =>
    obtain ⟨k', v'⟩ := kv
    by_cases hk : k' = k
    · subst hk
      simp [dinsert, dkeys]
    · have hk' : ¬ k = k' := fun h => hk h.symm
      by_cases hmem : k ∈ dkeys rest
      all_goals
        simp only [dkeys] at hmem ih
        simp only [hmem, if_true, if_false] at ih
        simp [dinsert, hk, dkeys, hmem, hk', ih]

theorem NodupKeys_dinsert {w : Assignment ν α} (h : NodupKeys w) (k : ν) (v : α) :
    NodupKeys (dinsert w k v) := by
  unfold NodupKeys at h ⊢
  rw [dkeys_dinsert]
  by_cases hmem : k ∈ dkeys w
  · simpa [hmem] using h
  · simp only [hmem, if_false]
    simpa [List.nodup_append] using ⟨h, fun hx => hmem hx⟩

/-- Position of the first occurrence of an element in a list (list length
if absent).  Used as the rank of a node inside the topological order. -/
def lidx : List ν → ν → Nat
  | [], _ => 0
  | x :: rest, u => if x = u then 0 else lidx rest u + 1

theorem lidx_le_length (l : List ν) (u : ν) : lidx l u ≤ l.length := by
  induction l with
  | nil => simp [lidx]
  | cons x rest ih =>
    by_cases hx : x = u <;> simp [lidx, hx, Nat.succ_le_succ ih]

theorem lidx_lt_length_of_mem {l : List ν} {u : ν} (h : u ∈ l) :
    lidx l u < l.length := by
  induction l with
  | nil => simp at h
  | cons x rest ih =>
    by_cases hx : x = u
    · simp [lidx, hx]
    · have : u ∈ rest := by
        rcases List.mem_cons.mp h with h' | h'
        · exact absurd h'.symm hx
        · exact h'
      simpa [lidx, hx] using Nat.succ_lt_succ (ih this)

/-- Embedding of the structural functional model (`sfm/model.py`).  The
wrapped `networkx.DiGraph` is an external collaborator, so the structure
exposes exactly the read-only queries the inference code uses: the node
list (`graph.nodes`), the predecessor list of each node
(`graph.predecessors` / `SFM.parents`), the cached topological order
(`networkx.topological_sort`), the cached acyclicity check
(`networkx.is_directed_acyclic_graph`), and the structural-function
table.  A structural function receives an assignment (the code passes
either the whole working assignment or a parent assignment) and returns
a value. -/
structure SFM (ν α : Type) where
  nodes : List ν
  parents : ν → List ν
  functions : ν → Assignment ν α → α
  topological_order : List ν
  is_directed_acyclic_graph : Bool

/-- Exogenous nodes: graph nodes with in-degree zero (`SFM.exo_nodes`). -/
def SFM.exo_nodes (M : SFM ν α) : List ν :=
  M.nodes.filter (fun u => (M.parents u).isEmpty)

/-- Endogenous nodes: graph nodes with at least one parent
(`SFM.endo_nodes`). -/
def SFM.endo_nodes (M : SFM ν α) : List ν :=
  M.nodes.filter (fun u => !(M.parents u).isEmpty)

/-- Modelled from the spec: `SFM.is_exo_node` is called by `cfi`
(`sfm/inference.py`) and by `partial_cfi` (`sfm/partial.py`) but is not
defined anywhere under `src/`.  The spec lists "node classification"
among the read-only queries the model must expose and defines a
root/exogenous node as a graph node with no incoming edges whose value
is supplied externally, so the missing method is modelled as membership
in the root-node set. -/
def SFM.is_exo_node (M : SFM ν α) (u : ν) : Bool :=
  decide (u ∈ M.exo_nodes)

/-- Rank of a node: its position in the topological order. -/
def SFM.rank (M : SFM ν α) (u : ν) : Nat :=
  lidx M.topological_order u

/-- Guarantees provided by the external graph library for a finite
directed acyclic graph: the node list has no duplicates, the cached
topological order enumerates exactly the graph nodes, predecessor lists
are duplicate-free sets of graph nodes, every parent precedes its child
in the topological order, and the cached acyclicity flag is set. -/
structure SFM.WF (M : SFM ν α) : Prop where
  acyclic : M.is_directed_acyclic_graph = true
  nodes_nodup : M.nodes.Nodup
  topo_nodup : M.topological_order.Nodup
  topo_sub : ∀ u ∈ M.topological_order, u ∈ M.nodes
  nodes_sub : ∀ u ∈ M.nodes, u ∈ M.topological_order
  parents_nodup : ∀ u ∈ M.nodes, (M.parents u).Nodup
  parents_mem : ∀ u ∈ M.nodes, ∀ p ∈ M.parents u, p ∈ M.nodes
  parents_rank : ∀ u ∈ M.nodes, ∀ p ∈ M.parents u, M.rank p < M.rank u

/-- Structural functions are pure and deterministic and read only their
parents' values: on assignments agreeing on the parents of `u`, the
function of `u` yields identical outputs (the code comments in `vfi`
rely on exactly this to pass the whole working assignment instead of a
parent assignment). -/
def PureFns (M : SFM ν α) : Prop :=
  ∀ u ∈ M.nodes, ∀ w w' : Assignment ν α,
    (∀ p ∈ M.parents u, dget w p = dget w' p) → M.functions u w = M.functions u w'

theorem SFM.mem_exo_iff (M : SFM ν α) (u : ν) :
    u ∈ M.exo_nodes ↔ u ∈ M.nodes ∧ M.parents u = [] := by
  simp [SFM.exo_nodes, List.mem_filter, List.isEmpty_iff]

theorem SFM.mem_endo_iff (M : SFM ν α) (u : ν) :
    u ∈ M.endo_nodes ↔ u ∈ M.nodes ∧ M.parents u ≠ [] := by
  simp [SFM.endo_nodes, List.mem_filter, List.isEmpty_iff]

theorem SFM.exo_endo_disjoint (M : SFM ν α) (u : ν)
    (h1 : u ∈ M.exo_nodes) (h2 : u ∈ M.endo_nodes) : False := by
  rw [SFM.mem_exo_iff] at h1
  rw [SFM.mem_endo_iff] at h2
  exact h2.2 h1.2

/-- Ancestor relation: `Reaches M u t` iff there is a (possibly empty)
directed path from `u` to `t`, i.e. `u` is in the ancestor closure of
`{t}`. -/
inductive Reaches (M : SFM ν α) : ν → ν → Prop
  | refl (u : ν) : Reaches M u u
  | step {u p t : ν} : p ∈ M.parents t → Reaches M u p → Reaches M u t

theorem Reaches.rank_le {M : SFM ν α} (hWF : M.WF) {u t : ν}
    (h : Reaches M u t) (ht : t ∈ M.nodes) : u ∈ M.nodes ∧ M.rank u ≤ M.rank t := by
  induction h with
  | refl => exact ⟨ht, le_refl _⟩
  | step hp _ ih =>
    rename_i u' p' t' _
    have hpn : p' ∈ M.nodes := hWF.parents_mem _ ht _ hp
    have := ih hpn
    exact ⟨this.1, le_trans this.2 (le_of_lt (hWF.parents_rank _ ht _ hp))⟩

/-- Error taxonomy of the precondition checks (spec section 7); the
Python code raises `AssertionError`/`ValueError` with matching
messages. -/
inductive SFMError where
  | StructuralError
  | InputCoverageError
  | InvalidTargetError
  | InvalidChangeSetError
deriving DecidableEq, Repr

/-- Embedding of `delta_encode` (`sfm/inference.py`): keep the node-value
pairs of `w1` that are absent from `w0` or differ from `w0`'s value.
The Python loop builds a fresh dict by inserting each kept pair of `w1`
in iteration order, which on an association list is exactly this
filtering recursion (`node not in w0 or new_value != w0[node]` is
`dget w0 node ≠ some new_value`). -/
def delta_encode : Assignment ν α → Assignment ν α → Assignment ν α
  | [], _ => []
  | (node, new_value) :: rest, w0 =>
    if dget w0 node = some new_value then delta_encode rest w0
    else (node, new_value) :: delta_encode rest w0

/-- Embedding of `delta_decode` (`sfm/inference.py`): copy `w0` and then
write every entry of `w1_change` over it, in iteration order. -/
def delta_decode : Assignment ν α → Assignment ν α → Assignment ν α
  | [], w0 => w0
  | (node, v) :: rest, w0 => delta_decode rest (dinsert w0 node v)

theorem dkeys_delta_encode_sublist (w1 w0 : Assignment ν α) :
    (dkeys (delta_encode w1 w0)).Sublist (dkeys w1) := by
  induction w1 with
  | nil => simp [delta_encode]
  | cons kv rest ih =>
    obtain ⟨node, v⟩ := kv
    by_cases h : dget w0 node = some v
    · simpa [delta_encode, h, dkeys] using ih.cons node
    · simpa [delta_encode, h, dkeys] using ih.cons₂ node

theorem NodupKeys_delta_encode {w1 : Assignment ν α} (h : NodupKeys w1)
    (w0 : Assignment ν α) : NodupKeys (delta_encode w1 w0) :=
  (dkeys_delta_encode_sublist w1 w0).nodup h

theorem dget_delta_encode {w1 : Assignment ν α} (h : NodupKeys w1)
    (w0 : Assignment ν α) (x : ν) :
    dget (delta_encode w1 w0) x =
      match dget w1 x with
      | none => none
      | some v => if dget w0 x = some v then none else some v := by
  induction w1 with
  | nil => simp [delta_encode, dget]
  | cons kv rest ih =>
    obtain ⟨node, v⟩ := kv
    have hrest : NodupKeys rest := by
      simp [NodupKeys, dkeys] at h
      exact h.2
    by_cases hx : node = x
    · subst hx
      have hnone : dget rest node = none := by
        simp [NodupKeys, dkeys] at h
        by_contra hne
        rcases Option.ne_none_iff_exists'.mp hne with ⟨v0, hv0⟩
        exact absurd ((mem_dkeys_iff_dcontains rest node).mpr
          (dcontains_of_dget_eq_some hv0))
          (by simpa [dkeys] using h.1)
      by_cases hval : dget w0 node = some v
      · have := ih hrest
        simp [delta_encode, hval, dget, this, hnone]
      · simp [delta_encode, hval, dget]
    · by_cases hval : dget w0 node = some v
      · simpa [delta_encode, hval, dget, hx] using ih hrest
      · simpa [delta_encode, hval, dget, hx] using ih hrest

theorem dget_delta_decode {c : Assignment ν α} (h : NodupKeys c)
    (w0 : Assignment ν α) (x : ν) :
    dget (delta_decode c w0) x =
      match dget c x with
      | some v => some v
      | none => dget w0 x := by
  induction c generalizing w0 with
  | nil => simp [delta_decode, dget]
  | cons kv rest ih =>
    obtain ⟨node, v⟩ := kv
    have hrest : NodupKeys rest := by
      simp [NodupKeys, dkeys] at h
      exact h.2
    have hnotin : node ∉ dkeys rest := by
      simp [NodupKeys, dkeys] at h
      simpa [dkeys] using h.1
    by_cases hx : node = x
    · subst hx
      have hnone : dget rest node = none := by
        by_contra hne
        rcases Option.ne_none_iff_exists'.mp hne with ⟨v0, hv0⟩
        exact hnotin ((mem_dkeys_iff_dcontains rest node).mpr
          (dcontains_of_dget_eq_some hv0))
      simp [delta_decode, dget, ih hrest, hnone, dget_dinsert]
    · simp [delta_decode, dget, ih hrest, hx, dget_dinsert]

theorem dcontains_delta_decode {c : Assignment ν α} (h : NodupKeys c)
    (w0 : Assignment ν α) (x : ν) :
    dcontains (delta_decode c w0) x = (dcontains c x || dcontains w0 x) := by
  rw [dcontains, dget_delta_decode h]
  cases hc : dget c x with
  | none => simp [dcontains, hc]
  | some v => simp [dcontains, hc]

theorem lidx_append_of_mem {l1 : List ν} {u : ν} (h : u ∈ l1) (l2 : List ν) :
    lidx (l1 ++ l2) u = lidx l1 u := by
  induction l1 with
  | nil => simp at h
  | cons x rest ih =>
    by_cases hx : x = u
    · simp [lidx, hx]
    · have : u ∈ rest := by
        rcases List.mem_cons.mp h with h' | h'
        · exact absurd h'.symm hx
        · exact h'
      simp [lidx, hx, ih this]

theorem lidx_append_of_not_mem {l1 : List ν} {u : ν} (h : u ∉ l1) (l2 : List ν) :
    lidx (l1 ++ l2) u = l1.length + lidx l2 u := by
  induction l1 with
  | nil => simp
  | cons x rest ih =>
    have hx : ¬ x = u := fun hh => h (by simp [hh])
    have : u ∉ rest := fun hh => h (by simp [hh])
    simp [lidx, hx, ih this]
    omega

/-- Boolean embedding of the coverage assertion
`frozenset(w.keys()) == node_set`: set equality of the dictionary's key
set with a node list. -/
def keysEq (w : Assignment ν α) (l : List ν) : Bool :=
  (dkeys w).all (fun k => decide (k ∈ l)) && l.all (fun u => dcontains w u)

theorem keysEq_mem_left {w : Assignment ν α} {l : List ν}
    (h : keysEq w l = true) {k : ν} (hk : dcontains w k = true) : k ∈ l := by
  simp [keysEq, List.all_eq_true] at h
  exact h.1 k ((mem_dkeys_iff_dcontains w k).mpr hk)

theorem keysEq_mem_right {w : Assignment ν α} {l : List ν}
    (h : keysEq w l = true) {u : ν} (hu : u ∈ l) : dcontains w u = true := by
  simp [keysEq, List.all_eq_true] at h
  exact h.2 u hu

/-- The per-node loop of `vfi` (`sfm/inference.py`): walk the topological
order; any node not yet assigned gets its structural function applied to
the whole working assignment (the code's fast path, valid for pure
functions that read only parent keys). -/
def vfiLoop (M : SFM ν α) : List ν → Assignment ν α → Assignment ν α
  | [], w => w
  | node :: rest, w =>
    if dcontains w node then vfiLoop M rest w
    else vfiLoop M rest (dinsert w node (M.functions node w))

/-- Embedding of `vfi` (vanilla forward inference, `sfm/inference.py`):
assert the graph is a DAG, assert `w_exo` covers exactly the exogenous
nodes, then fill in every remaining node along the topological order. -/
def vfi (M : SFM ν α) (w_exo : Assignment ν α) : Except SFMError (Assignment ν α) :=
  if ¬ M.is_directed_acyclic_graph then .error .StructuralError
  else if ¬ keysEq w_exo M.exo_nodes then .error .InputCoverageError
  else .ok (vfiLoop M M.topological_order w_exo)

theorem vfiLoop_preserve {M : SFM ν α} (l : List ν) {w : Assignment ν α} {u : ν}
    (h : dcontains w u = true) : dget (vfiLoop M l w) u = dget w u := by
  induction l generalizing w with
  | nil => simp [vfiLoop]
  | cons node rest ih =>
    by_cases hc : dcontains w node
    · simp [vfiLoop, hc, ih h]
    · have hne : ¬ node = u := fun hh => hc (hh ▸ h)
      have h' : dcontains (dinsert w node (M.functions node w)) u = true := by
        simp [dcontains, dget_dinsert, hne]
        simpa [dcontains] using h
      simp [vfiLoop, hc, ih h', dget_dinsert, hne]

theorem vfiLoop_NodupKeys {M : SFM ν α} (l : List ν) {w : Assignment ν α}
    (h : NodupKeys w) : NodupKeys (vfiLoop M l w) := by
  induction l generalizing w with
  | nil => simpa [vfiLoop]
  | cons node rest ih =>
    by_cases hc : dcontains w node
    · simpa [vfiLoop, hc] using ih h
    · simpa [vfiLoop, hc] using ih (NodupKeys_dinsert h node _)

/-- A total valuation satisfies the model when exogenous nodes carry the
supplied input values, every endogenous node carries its structural
function applied to the valuation, and nothing outside the graph is
assigned (this is `SFM.satisfied_by` specialized to the valuations the
evaluators produce, plus the exact-domain bookkeeping). -/
def Sats (M : SFM ν α) (wexo w : Assignment ν α) : Prop :=
  (∀ u ∈ M.exo_nodes, dget w u = dget wexo u) ∧
  (∀ u ∈ M.endo_nodes, dget w u = some (M.functions u w)) ∧
  (∀ u, u ∉ M.nodes → dget w u = none)

theorem Sats_unique {M : SFM ν α} (hWF : M.WF) (hpure : PureFns M)
    {wexo w w' : Assignment ν α} (hw : Sats M wexo w) (hw' : Sats M wexo w') :
    ∀ u, dget w u = dget w' u := by
  suffices key : ∀ n u, M.rank u = n → dget w u = dget w' u by
    intro u
    exact key (M.rank u) u rfl
  intro n
  induction n using Nat.strong_induction_on with
  | _ n ih =>
    intro u hn
    by_cases hu : u ∈ M.nodes
    · by_cases hp : M.parents u = []
      · have hexo : u ∈ M.exo_nodes := (M.mem_exo_iff u).mpr ⟨hu, hp⟩
        rw [hw.1 u hexo, hw'.1 u hexo]
      · have hendo : u ∈ M.endo_nodes := (M.mem_endo_iff u).mpr ⟨hu, hp⟩
        rw [hw.2.1 u hendo, hw'.2.1 u hendo]
        have : M.functions u w = M.functions u w' := by
          apply hpure u hu
          intro p hpmem
          exact ih (M.rank p) (hn ▸ hWF.parents_rank u hu p hpmem) p rfl
        rw [this]
    · rw [hw.2.2 u hu, hw'.2.2 u hu]

/-- Invariant of the `vfi` loop: `done` is the processed prefix of the
topological order, the working assignment covers exactly the inputs plus
the processed nodes, input values are untouched, and each processed
endogenous node already satisfies its structural equation. -/
def VfiInv (M : SFM ν α) (wexo : Assignment ν α) (done : List ν)
    (w : Assignment ν α) : Prop :=
  (∀ u, dcontains w u = true ↔ (dcontains wexo u = true ∨ u ∈ done)) ∧
  (∀ u, dcontains wexo u = true → dget w u = dget wexo u) ∧
  (∀ u ∈ done, u ∈ M.endo_nodes → dget w u = some (M.functions u w))

theorem vfiLoop_inv {M : SFM ν α} (hWF : M.WF) (hpure : PureFns M)
    {wexo : Assignment ν α} (hkeys : keysEq wexo M.exo_nodes = true) :
    ∀ (l done : List ν) (w : Assignment ν α),
      M.topological_order = done ++ l → VfiInv M wexo done w →
      VfiInv M wexo (done ++ l) (vfiLoop M l w) := by
  intro l
  induction l with
  | nil =>
    intro done w _ hinv
    simpa [vfiLoop] using hinv
  | cons node rest ih =>
    intro done w htopo hinv
    have htopo' : M.topological_order = (done ++ [node]) ++ rest := by
      simp [htopo]
    have hnodup : (done ++ node :: rest).Nodup := htopo ▸ hWF.topo_nodup
    have hnotdone : node ∉ done := by
      intro hmem
      rcases List.nodup_append.mp hnodup with ⟨_, _, hdisj⟩
      exact hdisj hmem (by simp)
    have hnodeTopo : node ∈ M.topological_order := by
      rw [htopo]; simp
    have hnodeNodes : node ∈ M.nodes := hWF.topo_sub node hnodeTopo
    have hrank_node : M.rank node = done.length := by
      unfold SFM.rank
      rw [htopo, lidx_append_of_not_mem hnotdone]
      simp [lidx]
    have hrank_done : ∀ u ∈ done, M.rank u < done.length := by
      intro u hu
      unfold SFM.rank
      rw [htopo, lidx_append_of_mem hu]
      exact lidx_lt_length_of_mem hu
    have hdone_nodes : ∀ u ∈ done, u ∈ M.nodes := by
      intro u hu
      exact hWF.topo_sub u (by rw [htopo]; simp [hu])
    have hgoal_eq : (done ++ [node]) ++ rest = done ++ node :: rest := by simp
    by_cases hc : dcontains w node = true
    · -- node already assigned: it must be an exogenous input node
      have hwexo : dcontains wexo node = true := by
        rcases (hinv.1 node).mp hc with h | h
        · exact h
        · exact absurd h hnotdone
      have hexo : node ∈ M.exo_nodes := keysEq_mem_left hkeys hwexo
      have hinv' : VfiInv M wexo (done ++ [node]) w := by
        refine ⟨?_, hinv.2.1, ?_⟩
        · intro u
          rw [hinv.1 u]
          constructor
          · rintro (h | h)
            · exact Or.inl h
            · exact Or.inr (by simp [h])
          · rintro (h | h)
            · exact Or.inl h
            · rcases List.mem_append.mp h with h' | h'
              · exact Or.inr h'
              · simp at h'
                subst h'
                exact Or.inl hwexo
        · intro u hu hendo
          rcases List.mem_append.mp hu with h' | h'
          · exact hinv.2.2 u h' hendo
          · simp at h'
            subst h'
            exact absurd hendo (fun hh => M.exo_endo_disjoint u hexo hh)
      have := ih (done ++ [node]) w htopo' hinv'
      rw [hgoal_eq] at this
      simpa [vfiLoop, hc] using this
    · -- node not yet assigned: it is endogenous and gets computed now
      have hwexo : ¬ dcontains wexo node = true := by
        intro h
        exact hc ((hinv.1 node).mpr (Or.inl h))
      have hnotexo : node ∉ M.exo_nodes := fun h => hwexo (keysEq_mem_right hkeys h)
      have hparents : M.parents node ≠ [] := by
        intro h
        exact hnotexo ((M.mem_exo_iff node).mpr ⟨hnodeNodes, h⟩)
      have hendo : node ∈ M.endo_nodes := (M.mem_endo_iff node).mpr ⟨hnodeNodes, hparents⟩
      set w' := dinsert w node (M.functions node w) with hw'
      have hpar_ne : ∀ p ∈ M.parents node, ¬ p = node := by
        intro p hp heq
        have := hWF.parents_rank node hnodeNodes p hp
        rw [heq] at this
        exact lt_irrefl _ this
      have hfun_node : M.functions node w' = M.functions node w := by
        apply hpure node hnodeNodes
        intro p hp
        rw [hw', dget_dinsert]
        have hnp : ¬ node = p := fun hh => hpar_ne p hp hh.symm
        simp [hnp]
      have hinv' : VfiInv M wexo (done ++ [node]) w' := by
        refine ⟨?_, ?_, ?_⟩
        · intro u
          rw [dcontains, hw', dget_dinsert]
          by_cases hu : node = u
          · subst hu
            simp [hnotdone, hwexo]
          · simp only [hu, if_false]
            rw [← dcontains, hinv.1 u]
            constructor
            · rintro (h | h)
              · exact Or.inl h
              · exact Or.inr (by simp [h])
            · rintro (h | h)
              · exact Or.inl h
              · rcases List.mem_append.mp h with h' | h'
                · exact Or.inr h'
                · simp at h'
                  exact absurd h'.symm hu
        · intro u hu
          have hne : ¬ node = u := fun hh => hwexo (hh ▸ hu)
          rw [hw', dget_dinsert]
          simp only [hne, if_false]
          exact hinv.2.1 u hu
        · intro u hu huendo
          rcases List.mem_append.mp hu with h' | h'
          · have hne : ¬ node = u := fun hh => hnotdone (hh ▸ h')
            have hval : dget w' u = some (M.functions u w) := by
              rw [hw', dget_dinsert]
              simp only [hne, if_false]
              exact hinv.2.2 u h' huendo
            have hfun : M.functions u w' = M.functions u w := by
              apply hpure u (hdone_nodes u h')
              intro p hp
              have hrank_p : M.rank p < M.rank u := hWF.parents_rank u (hdone_nodes u h') p hp
              have hpne : ¬ node = p := by
                intro hh
                subst hh
                have := hrank_done u h'
                omega
              rw [hw', dget_dinsert]
              simp [hpne]
            rw [hval, hfun]
          · simp at h'
            subst h'
            rw [hw', dget_dinsert]
            simp [hfun_node]
      have := ih (done ++ [node]) w' htopo' hinv'
      rw [hgoal_eq] at this
      simpa [vfiLoop, hc] using this

theorem vfiLoop_final_inv {M : SFM ν α} (hWF : M.WF) (hpure : PureFns M)
    {wexo : Assignment ν α} (hkeys : keysEq wexo M.exo_nodes = true) :
    VfiInv M wexo M.topological_order (vfiLoop M M.topological_order wexo) := by
  have hbase : VfiInv M wexo [] wexo := by
    refine ⟨fun u => by simp, fun u _ => rfl, by simp⟩
  simpa using vfiLoop_inv hWF hpure hkeys M.topological_order [] wexo (by simp) hbase

theorem vfi_sats {M : SFM ν α} (hWF : M.WF) (hpure : PureFns M)
    {wexo : Assignment ν α} (hkeys : keysEq wexo M.exo_nodes = true) :
    Sats M wexo (vfiLoop M M.topological_order wexo) := by
  have hinv := vfiLoop_final_inv hWF hpure hkeys
  refine ⟨?_, ?_, ?_⟩
  · intro u hu
    exact hinv.2.1 u (keysEq_mem_right hkeys hu)
  · intro u hu
    have hn : u ∈ M.nodes := ((M.mem_endo_iff u).mp hu).1
    exact hinv.2.2 u (hWF.nodes_sub u hn) hu
  · intro u hu
    apply dget_eq_none_of_not_dcontains
    intro hcon
    rcases (hinv.1 u).mp hcon with h | h
    · exact hu ((M.mem_exo_iff u).mp (keysEq_mem_left hkeys h)).1
    · exact hu (hWF.topo_sub u h)

theorem vfiLoop_covers {M : SFM ν α} (hWF : M.WF) (hpure : PureFns M)
    {wexo : Assignment ν α} (hkeys : keysEq wexo M.exo_nodes = true) :
    ∀ u ∈ M.nodes, dcontains (vfiLoop M M.topological_order wexo) u = true := by
  intro u hu
  exact ((vfiLoop_final_inv hWF hpure hkeys).1 u).mpr (Or.inr (hWF.nodes_sub u hu))

theorem vfi_ok {M : SFM ν α} (hWF : M.WF) {wexo : Assignment ν α}
    (hkeys : keysEq wexo M.exo_nodes = true) :
    vfi M wexo = .ok (vfiLoop M M.topological_order wexo) := by
  simp [vfi, hWF.acyclic, hkeys]

/-- The per-node initialization of `cfi`'s `changed` dictionary
(`sfm/inference.py`): a node starts dirty iff it appears in
`w1_change_exo` with a value differing from the baseline. -/
def cfiInitFlag [Inhabited α] (w1ce w0 : Assignment ν α) (u : ν) : Bool :=
  dcontains w1ce u && decide (dget! w1ce u ≠ dget! w0 u)

/-- The initialization loop `for u in sfm.graph.nodes: changed[u] = ...`
of `cfi`. -/
def cfiInitChanged [Inhabited α] (w1ce w0 : Assignment ν α) :
    List ν → Assignment ν Bool → Assignment ν Bool
  | [], acc => acc
  | u :: rest, acc =>
    cfiInitChanged w1ce w0 rest (dinsert acc u (cfiInitFlag w1ce w0 u))

/-- The main loop of `cfi` (`sfm/inference.py`), walking the topological
order.  A node is recomputed iff it or any parent is currently flagged
changed; a recomputed endogenous node is compared against the baseline
and demoted (flag left `false`) when the recomputed value coincides.
The returned list logs each structural-function invocation (the code's
`COUNT` diagnostic is its length). -/
def cfiLoop [Inhabited α] (M : SFM ν α) (w1ce w0 : Assignment ν α) :
    List ν → Assignment ν Bool → Assignment ν α → List ν →
    Assignment ν α × Assignment ν Bool × List ν
  | [], changed, w1, log => (w1, changed, log)
  | u :: rest, changed, w1, log =>
    if dget! changed u || (M.parents u).any (fun p => dget! changed p) then
      if M.is_exo_node u then
        cfiLoop M w1ce w0 rest changed (dinsert w1 u (dget! w1ce u)) log
      else
        let new_val := M.functions u w1
        if new_val ≠ dget! w0 u then
          cfiLoop M w1ce w0 rest (dinsert changed u true) (dinsert w1 u new_val)
            (u :: log)
        else
          cfiLoop M w1ce w0 rest changed (dinsert w1 u (dget! w0 u)) (u :: log)
    else
      cfiLoop M w1ce w0 rest changed (dinsert w1 u (dget! w0 u)) log

/-- Embedding of `cfi` (contrastive forward inference,
`sfm/inference.py`): assert the graph is a DAG, assert every changed key
is exogenous, assert the baseline covers every node, then run the
change-propagating walk of the topological order.  The second component
of the result is the invocation log (the code prints its length as
`COUNT` and returns only the assignment). -/
def cfi [Inhabited α] (M : SFM ν α) (w1_change_exo w0 : Assignment ν α) :
    Except SFMError (Assignment ν α × List ν) :=
  if ¬ M.is_directed_acyclic_graph then .error .StructuralError
  else if ¬ (dkeys w1_change_exo).all (fun u => decide (u ∈ M.exo_nodes)) then
    .error .InvalidChangeSetError
  else if ¬ M.nodes.all (fun u => dcontains w0 u) then .error .InputCoverageError
  else
    let changed := cfiInitChanged w1_change_exo w0 M.nodes []
    let r := cfiLoop M w1_change_exo w0 M.topological_order changed [] []
    .ok (r.1, r.2.2)

/-- Restriction of a total assignment to the root nodes (the
"baseline's root values" of the delta/full equivalence law). -/
def restrictExo (M : SFM ν α) (w : Assignment ν α) : Assignment ν α :=
  w.filter (fun kv => decide (kv.1 ∈ M.exo_nodes))

theorem dget_restrictExo (M : SFM ν α) (w : Assignment ν α) (x : ν) :
    dget (restrictExo M w) x = if x ∈ M.exo_nodes then dget w x else none := by
  induction w with
  | nil => simp [restrictExo, dget]
  | cons kv rest ih =>
    obtain ⟨k, v⟩ := kv
    by_cases hk : k ∈ M.exo_nodes
    · by_cases hx : k = x
      · subst hx
        simp [restrictExo, hk, dget]
      · simpa [restrictExo, hk, dget, hx] using ih
    · by_cases hx : k = x
      · subst hx
        simpa [restrictExo, hk, dget] using ih
      · simpa [restrictExo, hk, dget, hx] using ih

theorem dget_cfiInitChanged [Inhabited α] (w1ce w0 : Assignment ν α)
    (l : List ν) (acc : Assignment ν Bool) (u : ν) :
    dget (cfiInitChanged w1ce w0 l acc) u =
      if u ∈ l then some (cfiInitFlag w1ce w0 u) else dget acc u := by
  induction l generalizing acc with
  | nil => simp [cfiInitChanged]
  | cons x rest ih =>
    rw [cfiInitChanged, ih]
    by_cases hmem : u ∈ rest
    · simp [hmem]
    · by_cases hx : x = u
      · subst hx
        simp [hmem, dget_dinsert]
      · have : ¬ u = x := fun h => hx h.symm
        simp [hmem, dget_dinsert, hx, this]

/-- The exogenous input assignment that `cfi`'s result must agree with
`vfi` on: the changed roots overlaid onto the baseline's root values. -/
def cfiNewExo (M : SFM ν α) (w1ce w0 : Assignment ν α) : Assignment ν α :=
  delta_decode w1ce (restrictExo M w0)

/-- Ground-truth post-change total assignment: full evaluation on the
overlaid root inputs. -/
def cfiTruth (M : SFM ν α) (w1ce w0 : Assignment ν α) : Assignment ν α :=
  vfiLoop M M.topological_order (cfiNewExo M w1ce w0)

/-- The correct final dirty flag of a node: whether its post-change
value differs from its baseline value. -/
def cfiFinalFlag (M : SFM ν α) (w1ce w0 : Assignment ν α) (u : ν) : Bool :=
  decide (dget (cfiTruth M w1ce w0) u ≠ dget w0 u)

/-- A genuinely dirty root: present in the change set with a value
differing from the baseline. -/
def DirtyRoot (w1ce w0 : Assignment ν α) (r : ν) : Prop :=
  dcontains w1ce r = true ∧ dget w1ce r ≠ dget w0 r

theorem cfi_keysEq_newExo {M : SFM ν α} (hWF : M.WF) (hpure : PureFns M)
    {w0exo w0 w1ce : Assignment ν α}
    (hkeys0 : keysEq w0exo M.exo_nodes = true)
    (hw0 : w0 = vfiLoop M M.topological_order w0exo)
    (hCsub : ∀ u ∈ dkeys w1ce, u ∈ M.exo_nodes) (hCnodup : NodupKeys w1ce) :
    keysEq (cfiNewExo M w1ce w0) M.exo_nodes = true := by
  have hcov : ∀ u ∈ M.nodes, dcontains w0 u = true := by
    intro u hu
    rw [hw0]
    exact vfiLoop_covers hWF hpure hkeys0 u hu
  simp only [keysEq, Bool.and_eq_true, List.all_eq_true]
  constructor
  · intro k hk
    simp only [decide_eq_true_eq]
    have hc : dcontains (cfiNewExo M w1ce w0) k = true :=
      (mem_dkeys_iff_dcontains _ k).mp hk
    rw [cfiNewExo, dcontains_delta_decode hCnodup] at hc
    rcases Bool.or_eq_true_iff.mp hc with h | h
    · exact hCsub k ((mem_dkeys_iff_dcontains w1ce k).mpr h)
    · rw [dcontains, dget_restrictExo] at h
      by_cases hmem : k ∈ M.exo_nodes
      · exact hmem
      · simp [hmem] at h
  · intro u hu
    rw [cfiNewExo, dcontains_delta_decode hCnodup]
    apply Bool.or_eq_true_iff.mpr
    right
    rw [dcontains, dget_restrictExo]
    simp only [hu, if_true]
    exact hcov u ((M.mem_exo_iff u).mp hu).1

theorem cfiTruth_exo_val {M : SFM ν α} (hWF : M.WF) (hpure : PureFns M)
    {w0exo w0 w1ce : Assignment ν α}
    (hkeys0 : keysEq w0exo M.exo_nodes = true)
    (hw0 : w0 = vfiLoop M M.topological_order w0exo)
    (hCsub : ∀ u ∈ dkeys w1ce, u ∈ M.exo_nodes) (hCnodup : NodupKeys w1ce) :
    ∀ u ∈ M.exo_nodes, dget (cfiTruth M w1ce w0) u =
      match dget w1ce u with
      | some v => some v
      | none => dget w0 u := by
  intro u hu
  have hsats := vfi_sats hWF hpure
    (cfi_keysEq_newExo hWF hpure hkeys0 hw0 hCsub hCnodup)
  rw [cfiTruth, hsats.1 u hu, cfiNewExo, dget_delta_decode hCnodup,
    dget_restrictExo]
  cases dget w1ce u with
  | none => simp [hu]
  | some v => simp

theorem cfi_exo_flag_correct [Inhabited α] {M : SFM ν α} (hWF : M.WF)
    (hpure : PureFns M) {w0exo w0 w1ce : Assignment ν α}
    (hkeys0 : keysEq w0exo M.exo_nodes = true)
    (hw0 : w0 = vfiLoop M M.topological_order w0exo)
    (hCsub : ∀ u ∈ dkeys w1ce, u ∈ M.exo_nodes) (hCnodup : NodupKeys w1ce) :
    ∀ u ∈ M.exo_nodes, cfiInitFlag w1ce w0 u = cfiFinalFlag M w1ce w0 u := by
  intro u hu
  have hval := cfiTruth_exo_val hWF hpure hkeys0 hw0 hCsub hCnodup u hu
  have hcov : dcontains w0 u = true := by
    rw [hw0]
    exact vfiLoop_covers hWF hpure hkeys0 u ((M.mem_exo_iff u).mp hu).1
  have hw0some : dget w0 u = some (dget! w0 u) := dget_eq_some_getD hcov
  cases hc : dget w1ce u with
  | none =>
    have : ¬ dcontains w1ce u = true := by simp [dcontains, hc]
    simp only [hc] at hval
    simp [cfiInitFlag, cfiFinalFlag, this, hval]
  | some c =>
    have hcon : dcontains w1ce u = true := dcontains_of_dget_eq_some hc
    have hcval : dget! w1ce u = c := by simp [dget!, hc]
    simp only [hc] at hval
    simp [cfiInitFlag, cfiFinalFlag, hcon, hcval, hval, hw0some]

theorem cfi_endo_init_false [Inhabited α] {M : SFM ν α}
    {w0 w1ce : Assignment ν α}
    (hCsub : ∀ u ∈ dkeys w1ce, u ∈ M.exo_nodes) :
    ∀ u ∈ M.endo_nodes, cfiInitFlag w1ce w0 u = false := by
  intro u hu
  have : ¬ dcontains w1ce u = true := by
    intro h
    exact M.exo_endo_disjoint u (hCsub u ((mem_dkeys_iff_dcontains w1ce u).mpr h)) hu
  simp [cfiInitFlag, this]

theorem cfi_endo_parents_eq {M : SFM ν α} (hWF : M.WF) (hpure : PureFns M)
    {w0exo w0 w1ce : Assignment ν α}
    (hkeys0 : keysEq w0exo M.exo_nodes = true)
    (hw0 : w0 = vfiLoop M M.topological_order w0exo)
    (hCsub : ∀ u ∈ dkeys w1ce, u ∈ M.exo_nodes) (hCnodup : NodupKeys w1ce) :
    ∀ u ∈ M.endo_nodes,
      (∀ p ∈ M.parents u, dget (cfiTruth M w1ce w0) p = dget w0 p) →
      dget (cfiTruth M w1ce w0) u = dget w0 u := by
  intro u hu hpar
  have hsats : Sats M (cfiNewExo M w1ce w0) (cfiTruth M w1ce w0) := vfi_sats hWF hpure
    (cfi_keysEq_newExo hWF hpure hkeys0 hw0 hCsub hCnodup)
  have hsats0 : Sats M w0exo w0 := hw0 ▸ vfi_sats hWF hpure hkeys0
  rw [hsats.2.1 u hu, hsats0.2.1 u hu]
  have : M.functions u (cfiTruth M w1ce w0) = M.functions u w0 :=
    hpure u ((M.mem_endo_iff u).mp hu).1 _ _ hpar
  rw [this]

theorem cfi_diff_reaches {M : SFM ν α} (hWF : M.WF) (hpure : PureFns M)
    {w0exo w0 w1ce : Assignment ν α}
    (hkeys0 : keysEq w0exo M.exo_nodes = true)
    (hw0 : w0 = vfiLoop M M.topological_order w0exo)
    (hCsub : ∀ u ∈ dkeys w1ce, u ∈ M.exo_nodes) (hCnodup : NodupKeys w1ce) :
    ∀ u ∈ M.nodes, dget (cfiTruth M w1ce w0) u ≠ dget w0 u →
      ∃ r, DirtyRoot w1ce w0 r ∧ Reaches M r u := by
  suffices key : ∀ n u, M.rank u = n → u ∈ M.nodes →
      dget (cfiTruth M w1ce w0) u ≠ dget w0 u →
      ∃ r, DirtyRoot w1ce w0 r ∧ Reaches M r u by
    intro u hu hne
    exact key (M.rank u) u rfl hu hne
  intro n
  induction n using Nat.strong_induction_on with
  | _ n ih =>
    intro u hn hu hne
    by_cases hp : M.parents u = []
    · have hexo : u ∈ M.exo_nodes := (M.mem_exo_iff u).mpr ⟨hu, hp⟩
      have hval := cfiTruth_exo_val hWF hpure hkeys0 hw0 hCsub hCnodup u hexo
      cases hc : dget w1ce u with
      | none =>
        simp only [hc] at hval
        exact absurd hval hne
      | some c =>
        refine ⟨u, ⟨dcontains_of_dget_eq_some hc, ?_⟩, Reaches.refl u⟩
        simp only [hc] at hval
        rw [hc, ← hval]
        exact hne
    · have hendo : u ∈ M.endo_nodes := (M.mem_endo_iff u).mpr ⟨hu, hp⟩
      have : ¬ ∀ p ∈ M.parents u, dget (cfiTruth M w1ce w0) p = dget w0 p := by
        intro hall
        exact hne (cfi_endo_parents_eq hWF hpure hkeys0 hw0 hCsub hCnodup u hendo hall)
      push_neg at this
      obtain ⟨p, hpmem, hpne⟩ := this
      have hpn : p ∈ M.nodes := hWF.parents_mem u hu p hpmem
      obtain ⟨r, hdr, hre⟩ :=
        ih (M.rank p) (hn ▸ hWF.parents_rank u hu p hpmem) p rfl hpn hpne
      exact ⟨r, hdr, Reaches.step hpmem hre⟩

/-- Invariant of the `cfi` loop over a processed prefix `done` of the
topological order: every node's flag is stored (final for processed
nodes, initial otherwise), processed nodes carry the ground-truth
post-change value, and the invocation log lists distinct processed
endogenous nodes reachable from some genuinely dirty root. -/
def CfiInv [Inhabited α] (M : SFM ν α) (w1ce w0 : Assignment ν α) (done : List ν)
    (changed : Assignment ν Bool) (w1 : Assignment ν α) (log : List ν) : Prop :=
  (∀ u, dget changed u =
    if u ∈ M.nodes then
      some (if u ∈ done then cfiFinalFlag M w1ce w0 u else cfiInitFlag w1ce w0 u)
    else none) ∧
  (∀ u, dget w1 u = if u ∈ done then dget (cfiTruth M w1ce w0) u else none) ∧
  (log.Nodup ∧ ∀ u ∈ log, u ∈ done ∧ u ∈ M.endo_nodes ∧
    (∃ r, DirtyRoot w1ce w0 r ∧ Reaches M r u) ∧
    (∃ p ∈ M.parents u, cfiFinalFlag M w1ce w0 p = true))

theorem CfiInv_extend [Inhabited α] {M : SFM ν α} {w1ce w0 : Assignment ν α}
    {done : List ν} {changed : Assignment ν Bool} {w1 : Assignment ν α}
    {log : List ν} (hinv : CfiInv M w1ce w0 done changed w1 log) {node : ν}
    (hnode : node ∈ M.nodes) (hnotdone : node ∉ done)
    {changed' : Assignment ν Bool} {w1' : Assignment ν α} {log' : List ν}
    (hch : ∀ u, dget changed' u =
      if node = u then some (cfiFinalFlag M w1ce w0 node) else dget changed u)
    (hw1 : ∀ u, dget w1' u =
      if node = u then dget (cfiTruth M w1ce w0) node else dget w1 u)
    (hlog : log' = log ∨ (log' = node :: log ∧ node ∈ M.endo_nodes ∧
      (∃ r, DirtyRoot w1ce w0 r ∧ Reaches M r node) ∧
      (∃ p ∈ M.parents node, cfiFinalFlag M w1ce w0 p = true))) :
    CfiInv M w1ce w0 (done ++ [node]) changed' w1' log' := by
  obtain ⟨hA, hB, hCnodup, hC⟩ := hinv
  refine ⟨?_, ?_, ?_, ?_⟩
  · intro u
    rw [hch]
    by_cases hu : node = u
    · subst hu
      simp [hnode]
    · have hmem : u ∈ done ++ [node] ↔ u ∈ done := by
        simp only [List.mem_append, List.mem_singleton]
        constructor
        · rintro (h | h)
          · exact h
          · exact absurd h.symm hu
        · exact Or.inl
      rw [hA]
      simp only [hu, if_false, hmem]
  · intro u
    rw [hw1]
    by_cases hu : node = u
    · subst hu
      simp [hB]
    · have hmem : u ∈ done ++ [node] ↔ u ∈ done := by
        simp only [List.mem_append, List.mem_singleton]
        constructor
        · rintro (h | h)
          · exact h
          · exact absurd h.symm hu
        · exact Or.inl
      rw [hB]
      simp only [hu, if_false, hmem]
  · rcases hlog with h | ⟨h, _, _⟩
    · subst h; exact hCnodup
    · subst h
      refine List.nodup_cons.mpr ⟨?_, hCnodup⟩
      intro hmem
      exact hnotdone (hC node hmem).1
  · rcases hlog with h | ⟨h, hendo, hreach, hpdirty⟩
    · subst h
      intro u hu
      obtain ⟨h1, h2, h3⟩ := hC u hu
      exact ⟨by simp [h1], h2, h3⟩
    · subst h
      intro u hu
      rcases List.mem_cons.mp hu with h' | h'
      · subst h'
        exact ⟨by simp, hendo, hreach, hpdirty⟩
      · obtain ⟨h1, h2, h3⟩ := hC u h'
        exact ⟨by simp [h1], h2, h3⟩

theorem cfiLoop_inv [Inhabited α] {M : SFM ν α} (hWF : M.WF) (hpure : PureFns M)
    {w0exo w0 w1ce : Assignment ν α}
    (hkeys0 : keysEq w0exo M.exo_nodes = true)
    (hw0 : w0 = vfiLoop M M.topological_order w0exo)
    (hCsub : ∀ u ∈ dkeys w1ce, u ∈ M.exo_nodes) (hCnodup : NodupKeys w1ce) :
    ∀ (l done : List ν) (changed : Assignment ν Bool) (w1 : Assignment ν α)
      (log : List ν),
      M.topological_order = done ++ l →
      CfiInv M w1ce w0 done changed w1 log →
      CfiInv M w1ce w0 (done ++ l)
        (cfiLoop M w1ce w0 l changed w1 log).2.1
        (cfiLoop M w1ce w0 l changed w1 log).1
        (cfiLoop M w1ce w0 l changed w1 log).2.2 := by
  intro l
  induction l with
  | nil =>
    intro done changed w1 log _ hinv
    simpa [cfiLoop] using hinv
  | cons node rest ih =>
    intro done changed w1 log htopo hinv
    have htopo' : M.topological_order = (done ++ [node]) ++ rest := by
      simp [htopo]
    have hgoal_eq : (done ++ [node]) ++ rest = done ++ node :: rest := by simp
    have hnodup : (done ++ node :: rest).Nodup := htopo ▸ hWF.topo_nodup
    have hnotdone : node ∉ done := by
      intro hmem
      rcases List.nodup_append.mp hnodup with ⟨_, _, hdisj⟩
      exact hdisj hmem (by simp)
    have hnodeNodes : node ∈ M.nodes := hWF.topo_sub node (by rw [htopo]; simp)
    have hrank_node : M.rank node = done.length := by
      unfold SFM.rank
      rw [htopo, lidx_append_of_not_mem hnotdone]
      simp [lidx]
    have hpar_done : ∀ p ∈ M.parents node, p ∈ done := by
      intro p hp
      have hpn : p ∈ M.nodes := hWF.parents_mem node hnodeNodes p hp
      have hrk : M.rank p < done.length := hrank_node ▸
        hWF.parents_rank node hnodeNodes p hp
      by_contra hnot
      have : M.rank p = done.length + lidx (node :: rest) p := by
        unfold SFM.rank
        rw [htopo, lidx_append_of_not_mem hnot]
      omega
    have hpar_nodes : ∀ p ∈ M.parents node, p ∈ M.nodes :=
      fun p hp => hWF.parents_mem node hnodeNodes p hp
    have hflag_node : dget! changed node = cfiInitFlag w1ce w0 node := by
      rw [dget!, hinv.1 node]
      simp [hnodeNodes, hnotdone]
    have hflag_par : ∀ p ∈ M.parents node,
        dget! changed p = cfiFinalFlag M w1ce w0 p := by
      intro p hp
      rw [dget!, hinv.1 p]
      simp [hpar_nodes p hp, hpar_done p hp]
    have hsats : Sats M (cfiNewExo M w1ce w0) (cfiTruth M w1ce w0) :=
      vfi_sats hWF hpure (cfi_keysEq_newExo hWF hpure hkeys0 hw0 hCsub hCnodup)
    have hcov : ∀ u ∈ M.nodes, dcontains w0 u = true := by
      intro u hu
      rw [hw0]
      exact vfiLoop_covers hWF hpure hkeys0 u hu
    have hw0node : dget w0 node = some (dget! w0 node) :=
      dget_eq_some_getD (hcov node hnodeNodes)
    by_cases hexo : node ∈ M.exo_nodes
    · -- exogenous node: no parents, recompute iff initially flagged
      have hparnil : M.parents node = [] := ((M.mem_exo_iff node).mp hexo).2
      have hexoB : M.is_exo_node node = true := by
        simp [SFM.is_exo_node, hexo]
      have hflagEq : cfiInitFlag w1ce w0 node = cfiFinalFlag M w1ce w0 node :=
        cfi_exo_flag_correct hWF hpure hkeys0 hw0 hCsub hCnodup node hexo
      have hvalexo := cfiTruth_exo_val hWF hpure hkeys0 hw0 hCsub hCnodup node hexo
      cases hflag : cfiInitFlag w1ce w0 node with
      | true =>
        have hstep : cfiLoop M w1ce w0 (node :: rest) changed w1 log =
            cfiLoop M w1ce w0 rest changed (dinsert w1 node (dget! w1ce node)) log := by
          rw [cfiLoop, hflag_node, hflag, hparnil]
          simp [hexoB]
        have hcontains : dcontains w1ce node = true := by
          by_contra h
          simp [cfiInitFlag, h] at hflag
        have hW1node : dget (cfiTruth M w1ce w0) node = some (dget! w1ce node) := by
          rw [hvalexo, dget_eq_some_getD hcontains]
        have hinv' : CfiInv M w1ce w0 (done ++ [node]) changed
            (dinsert w1 node (dget! w1ce node)) log := by
          apply CfiInv_extend hinv hnodeNodes hnotdone
          · intro u
            by_cases hu : node = u
            · subst hu
              rw [hinv.1 node]
              simp [hnodeNodes, hnotdone, ← hflagEq, hflag]
            · simp [hu]
          · intro u
            rw [dget_dinsert]
            by_cases hu : node = u
            · subst hu
              simp [hW1node]
            · simp [hu]
          · exact Or.inl rfl
        have := ih (done ++ [node]) changed (dinsert w1 node (dget! w1ce node))
          log htopo' hinv'
        rw [hgoal_eq] at this
        rw [hstep]
        exact this
      | false =>
        have hstep : cfiLoop M w1ce w0 (node :: rest) changed w1 log =
            cfiLoop M w1ce w0 rest changed (dinsert w1 node (dget! w0 node)) log := by
          rw [cfiLoop, hflag_node, hflag, hparnil]
          simp
        have hW1node : dget (cfiTruth M w1ce w0) node = dget w0 node := by
          have : cfiFinalFlag M w1ce w0 node = false := hflagEq ▸ hflag
          simpa [cfiFinalFlag] using this
        have hinv' : CfiInv M w1ce w0 (done ++ [node]) changed
            (dinsert w1 node (dget! w0 node)) log := by
          apply CfiInv_extend hinv hnodeNodes hnotdone
          · intro u
            by_cases hu : node = u
            · subst hu
              rw [hinv.1 node]
              simp [hnodeNodes, hnotdone, ← hflagEq, hflag]
            · simp [hu]
          · intro u
            rw [dget_dinsert]
            by_cases hu : node = u
            · subst hu
              simp [hW1node, hw0node]
            · simp [hu]
          · exact Or.inl rfl
        have := ih (done ++ [node]) changed (dinsert w1 node (dget! w0 node))
          log htopo' hinv'
        rw [hgoal_eq] at this
        rw [hstep]
        exact this
    · -- endogenous node
      have hparents : M.parents node ≠ [] := by
        intro h
        exact hexo ((M.mem_exo_iff node).mpr ⟨hnodeNodes, h⟩)
      have hendo : node ∈ M.endo_nodes := (M.mem_endo_iff node).mpr ⟨hnodeNodes, hparents⟩
      have hexoB : M.is_exo_node node = false := by
        simp [SFM.is_exo_node, hexo]
      have hinit : cfiInitFlag w1ce w0 node = false :=
        cfi_endo_init_false hCsub node hendo
      have hagree : ∀ p ∈ M.parents node, dget w1 p = dget (cfiTruth M w1ce w0) p := by
        intro p hp
        rw [hinv.2.1 p]
        simp [hpar_done p hp]
      have hfun : M.functions node w1 = M.functions node (cfiTruth M w1ce w0) :=
        hpure node hnodeNodes _ _ hagree
      have hvalW1 : dget (cfiTruth M w1ce w0) node = some (M.functions node w1) := by
        rw [hsats.2.1 node hendo, hfun]
      cases hany : (M.parents node).any (fun p => dget! changed p) with
      | true =>
        -- recompute: some parent is (finally) dirty
        obtain ⟨p, hp, hpb⟩ := List.any_eq_true.mp hany
        have hpflag : cfiFinalFlag M w1ce w0 p = true := by
          rw [← hflag_par p hp]
          exact hpb
        have hpdiff : dget (cfiTruth M w1ce w0) p ≠ dget w0 p := by
          simpa [cfiFinalFlag] using hpflag
        have hreach : ∃ r, DirtyRoot w1ce w0 r ∧ Reaches M r node := by
          obtain ⟨r, hdr, hre⟩ := cfi_diff_reaches hWF hpure hkeys0 hw0 hCsub
            hCnodup p (hpar_nodes p hp) hpdiff
          exact ⟨r, hdr, Reaches.step hp hre⟩
        by_cases hne : M.functions node w1 ≠ dget! w0 node
        · -- value changed: keep the node dirty and store the new value
          have hstep : cfiLoop M w1ce w0 (node :: rest) changed w1 log =
              cfiLoop M w1ce w0 rest (dinsert changed node true)
                (dinsert w1 node (M.functions node w1)) (node :: log) := by
            rw [cfiLoop, hflag_node, hinit, hany]
            simp [hexoB, hne]
          have hflagT : cfiFinalFlag M w1ce w0 node = true := by
            simp only [cfiFinalFlag, decide_eq_true_eq]
            rw [hvalW1, hw0node]
            simp [hne]
          have hinv' : CfiInv M w1ce w0 (done ++ [node])
              (dinsert changed node true)
              (dinsert w1 node (M.functions node w1)) (node :: log) := by
            apply CfiInv_extend hinv hnodeNodes hnotdone
            · intro u
              rw [dget_dinsert]
              by_cases hu : node = u
              · subst hu
                simp [hflagT]
              · simp [hu]
            · intro u
              rw [dget_dinsert]
              by_cases hu : node = u
              · subst hu
                simp [hvalW1]
              · simp [hu]
            · exact Or.inr ⟨rfl, hendo, hreach, p, hp, hpflag⟩
          have := ih (done ++ [node]) (dinsert changed node true)
            (dinsert w1 node (M.functions node w1)) (node :: log) htopo' hinv'
          rw [hgoal_eq] at this
          rw [hstep]
          exact this
        · -- value unchanged: demote (flag stays false), reuse the baseline
          push_neg at hne
          have hstep : cfiLoop M w1ce w0 (node :: rest) changed w1 log =
              cfiLoop M w1ce w0 rest changed
                (dinsert w1 node (dget! w0 node)) (node :: log) := by
            rw [cfiLoop, hflag_node, hinit, hany]
            simp [hexoB, hne]
          have hW1node : dget (cfiTruth M w1ce w0) node = dget w0 node := by
            rw [hvalW1, hw0node, hne]
          have hflagF : cfiFinalFlag M w1ce w0 node = false := by
            simp [cfiFinalFlag, hW1node]
          have hinv' : CfiInv M w1ce w0 (done ++ [node]) changed
              (dinsert w1 node (dget! w0 node)) (node :: log) := by
            apply CfiInv_extend hinv hnodeNodes hnotdone
            · intro u
              by_cases hu : node = u
              · subst hu
                rw [hinv.1 node]
                simp [hnodeNodes, hnotdone, hinit, hflagF]
              · simp [hu]
            · intro u
              rw [dget_dinsert]
              by_cases hu : node = u
              · subst hu
                simp [hW1node, hw0node]
              · simp [hu]
            · exact Or.inr ⟨rfl, hendo, hreach, p, hp, hpflag⟩
          have := ih (done ++ [node]) changed
            (dinsert w1 node (dget! w0 node)) (node :: log) htopo' hinv'
          rw [hgoal_eq] at this
          rw [hstep]
          exact this
      | false =>
        -- no dirty parent: copy the baseline without invoking the function
        have hall : ∀ p ∈ M.parents node,
            dget (cfiTruth M w1ce w0) p = dget w0 p := by
          intro p hp
          have : dget! changed p = false := by
            rcases List.any_eq_false.mp hany p hp with h
            simpa using h
          have hflagF : cfiFinalFlag M w1ce w0 p = false := by
            rw [← hflag_par p hp]
            exact this
          simpa [cfiFinalFlag] using hflagF
        have hW1node : dget (cfiTruth M w1ce w0) node = dget w0 node :=
          cfi_endo_parents_eq hWF hpure hkeys0 hw0 hCsub hCnodup node hendo hall
        have hflagF : cfiFinalFlag M w1ce w0 node = false := by
          simp [cfiFinalFlag, hW1node]
        have hstep : cfiLoop M w1ce w0 (node :: rest) changed w1 log =
            cfiLoop M w1ce w0 rest changed
              (dinsert w1 node (dget! w0 node)) log := by
          rw [cfiLoop, hflag_node, hinit, hany]
          simp
        have hinv' : CfiInv M w1ce w0 (done ++ [node]) changed
            (dinsert w1 node (dget! w0 node)) log := by
          apply CfiInv_extend hinv hnodeNodes hnotdone
          · intro u
            by_cases hu : node = u
            · subst hu
              rw [hinv.1 node]
              simp [hnodeNodes, hnotdone, hinit, hflagF]
            · simp [hu]
          · intro u
            rw [dget_dinsert]
            by_cases hu : node = u
            · subst hu
              simp [hW1node, hw0node]
            · simp [hu]
          · exact Or.inl rfl
        have := ih (done ++ [node]) changed
          (dinsert w1 node (dget! w0 node)) log htopo' hinv'
        rw [hgoal_eq] at this
        rw [hstep]
        exact this

theorem vfi_ok_elim {M : SFM ν α} {wexo w : Assignment ν α}
    (h : vfi M wexo = Except.ok w) :
    keysEq wexo M.exo_nodes = true ∧ w = vfiLoop M M.topological_order wexo := by
  unfold vfi at h
  by_cases h1 : M.is_directed_acyclic_graph = true
  · by_cases h2 : keysEq wexo M.exo_nodes = true
    · simp only [h1, h2, not_true, if_false, if_neg] at h
      simp at h
      exact ⟨h2, h.symm⟩
    · simp [h1, h2] at h
  · simp [h1] at h

/-- The state after running `cfi`'s main loop from its initial state. -/
def cfiRun [Inhabited α] (M : SFM ν α) (w1ce w0 : Assignment ν α) :
    Assignment ν α × Assignment ν Bool × List ν :=
  cfiLoop M w1ce w0 M.topological_order (cfiInitChanged w1ce w0 M.nodes []) [] []

theorem cfi_eq_ok [Inhabited α] {M : SFM ν α} (hWF : M.WF)
    {w0exo w0 w1ce : Assignment ν α}
    (hkeys0 : keysEq w0exo M.exo_nodes = true)
    (hw0 : w0 = vfiLoop M M.topological_order w0exo) (hpure : PureFns M)
    (hCsub : ∀ u ∈ dkeys w1ce, u ∈ M.exo_nodes) :
    cfi M w1ce w0 = Except.ok ((cfiRun M w1ce w0).1, (cfiRun M w1ce w0).2.2) := by
  have hcheck1 : ((dkeys w1ce).all (fun u => decide (u ∈ M.exo_nodes))) = true := by
    simp only [List.all_eq_true, decide_eq_true_eq]
    exact hCsub
  have hcheck2 : (M.nodes.all (fun u => dcontains w0 u)) = true := by
    simp only [List.all_eq_true]
    intro u hu
    rw [hw0]
    exact vfiLoop_covers hWF hpure hkeys0 u hu
  simp [cfi, hWF.acyclic, hcheck1, hcheck2, cfiRun]

theorem cfi_final_inv [Inhabited α] {M : SFM ν α} (hWF : M.WF) (hpure : PureFns M)
    {w0exo w0 w1ce : Assignment ν α}
    (hkeys0 : keysEq w0exo M.exo_nodes = true)
    (hw0 : w0 = vfiLoop M M.topological_order w0exo)
    (hCsub : ∀ u ∈ dkeys w1ce, u ∈ M.exo_nodes) (hCnodup : NodupKeys w1ce) :
    CfiInv M w1ce w0 M.topological_order (cfiRun M w1ce w0).2.1
      (cfiRun M w1ce w0).1 (cfiRun M w1ce w0).2.2 := by
  have hbase : CfiInv M w1ce w0 [] (cfiInitChanged w1ce w0 M.nodes []) [] [] := by
    refine ⟨?_, ?_, ?_, ?_⟩
    · intro u
      rw [dget_cfiInitChanged]
      simp [dget]
    · intro u
      simp [dget]
    · exact List.nodup_nil
    · intro u hu
      simp at hu
  have := cfiLoop_inv hWF hpure hkeys0 hw0 hCsub hCnodup M.topological_order []
    (cfiInitChanged w1ce w0 M.nodes []) [] [] (by simp) hbase
  simpa [cfiRun] using this

theorem cfi_result_eq_truth [Inhabited α] {M : SFM ν α} (hWF : M.WF)
    (hpure : PureFns M) {w0exo w0 w1ce : Assignment ν α}
    (hkeys0 : keysEq w0exo M.exo_nodes = true)
    (hw0 : w0 = vfiLoop M M.topological_order w0exo)
    (hCsub : ∀ u ∈ dkeys w1ce, u ∈ M.exo_nodes) (hCnodup : NodupKeys w1ce) :
    ∀ u, dget (cfiRun M w1ce w0).1 u = dget (cfiTruth M w1ce w0) u := by
  intro u
  have hinv := cfi_final_inv hWF hpure hkeys0 hw0 hCsub hCnodup
  rw [hinv.2.1 u]
  by_cases hu : u ∈ M.topological_order
  · simp [hu]
  · have hnn : u ∉ M.nodes := fun h => hu (hWF.nodes_sub u h)
    have hsats : Sats M (cfiNewExo M w1ce w0) (cfiTruth M w1ce w0) :=
      vfi_sats hWF hpure (cfi_keysEq_newExo hWF hpure hkeys0 hw0 hCsub hCnodup)
    simp [hu, (hsats.2.2 u hnn).symm]

/-- C1.  Delta/full equivalence: for an acyclic model with pure
deterministic node functions, a baseline produced by full evaluation
`vfi`, and a changed-root mapping whose keys are all roots, delta
evaluation `cfi` returns exactly (key-by-key) the total assignment that
full evaluation `vfi` returns on the root inputs obtained by overlaying
the change set onto the baseline's root values. -/
theorem cfi_delta_full_equivalence [Inhabited α] {M : SFM ν α} (hWF : M.WF)
    (hpure : PureFns M) {w0exo w0 w1ce : Assignment ν α}
    (hbase : vfi M w0exo = Except.ok w0)
    (hCsub : ∀ u ∈ dkeys w1ce, u ∈ M.exo_nodes) (hCnodup : NodupKeys w1ce) :
    ∃ wnew, vfi M (delta_decode w1ce (restrictExo M w0)) = Except.ok wnew ∧
      ∃ w1 log, cfi M w1ce w0 = Except.ok (w1, log) ∧
        ∀ u, dget w1 u = dget wnew u := by
  obtain ⟨hkeys0, hw0⟩ := vfi_ok_elim hbase
  refine ⟨cfiTruth M w1ce w0, ?_, (cfiRun M w1ce w0).1, (cfiRun M w1ce w0).2.2,
    cfi_eq_ok hWF hkeys0 hw0 hpure hCsub, ?_⟩
  · exact vfi_ok hWF (cfi_keysEq_newExo hWF hpure hkeys0 hw0 hCsub hCnodup)
  · exact cfi_result_eq_truth hWF hpure hkeys0 hw0 hCsub hCnodup

theorem nodup_subset_length_le {l l' : List ν} (hn : l.Nodup)
    (hsub : ∀ x ∈ l, x ∈ l') : l.length ≤ l'.length := by
  classical
  calc l.length = l.toFinset.card := (List.toFinset_card_of_nodup hn).symm
    _ ≤ l'.toFinset.card := Finset.card_le_card (by
        intro x hx
        rw [List.mem_toFinset] at hx ⊢
        exact hsub x hx)
    _ ≤ l'.length := l'.toFinset_card_le

theorem nodup_subset_length_lt {l l' : List ν} (hn : l.Nodup) (hn' : l'.Nodup)
    (hsub : ∀ x ∈ l, x ∈ l') {d : ν} (hd : d ∈ l') (hdl : d ∉ l) :
    l.length < l'.length := by
  classical
  have h1 : l.length = l.toFinset.card := (List.toFinset_card_of_nodup hn).symm
  have h2 : l'.length = l'.toFinset.card := (List.toFinset_card_of_nodup hn').symm
  rw [h1, h2]
  apply Finset.card_lt_card
  rw [Finset.ssubset_iff_of_subset (by
    intro x hx
    rw [List.mem_toFinset] at hx ⊢
    exact hsub x hx)]
  exact ⟨d, List.mem_toFinset.mpr hd, fun h => hdl (List.mem_toFinset.mp h)⟩

theorem SFM.endo_nodes_nodup {M : SFM ν α} (hWF : M.WF) : M.endo_nodes.Nodup :=
  hWF.nodes_nodup.filter _

/-- C5.  Cost of delta evaluation: the number of structural-function
invocations performed by `cfi` (the length of its invocation log, the
code's `COUNT`) never exceeds the number of derived nodes, and is
strictly smaller whenever the changed-root set is a strict subset of the
roots (so some root is unchanged) and some derived node has no path from
any changed root. -/
theorem cfi_invocation_count_bound [Inhabited α] {M : SFM ν α} (hWF : M.WF)
    (hpure : PureFns M) {w0exo w0 w1ce : Assignment ν α}
    (hbase : vfi M w0exo = Except.ok w0)
    (hCsub : ∀ u ∈ dkeys w1ce, u ∈ M.exo_nodes) (hCnodup : NodupKeys w1ce) :
    ∃ w1 log, cfi M w1ce w0 = Except.ok (w1, log) ∧
      log.length ≤ M.endo_nodes.length ∧
      ((∃ r ∈ M.exo_nodes, r ∉ dkeys w1ce) →
        (∃ d ∈ M.endo_nodes, ∀ r ∈ dkeys w1ce, ¬ Reaches M r d) →
        log.length < M.endo_nodes.length) := by
  obtain ⟨hkeys0, hw0⟩ := vfi_ok_elim hbase
  have hinv := cfi_final_inv hWF hpure hkeys0 hw0 hCsub hCnodup
  obtain ⟨_, _, hnodup, hlog⟩ := hinv
  refine ⟨(cfiRun M w1ce w0).1, (cfiRun M w1ce w0).2.2,
    cfi_eq_ok hWF hkeys0 hw0 hpure hCsub, ?_, ?_⟩
  · exact nodup_subset_length_le hnodup (fun x hx => (hlog x hx).2.1)
  · rintro _ ⟨d, hd, hdblocked⟩
    apply nodup_subset_length_lt hnodup (SFM.endo_nodes_nodup hWF)
      (fun x hx => (hlog x hx).2.1) hd
    intro hdlog
    obtain ⟨_, _, ⟨r, ⟨hrc, _⟩, hre⟩, _⟩ := hlog d hdlog
    exact hdblocked r ((mem_dkeys_iff_dcontains w1ce r).mpr hrc) hre

/-- Fuel sufficient to fully resolve one stack entry whose rank is at
most `h`, in a graph whose in-degrees are bounded by `D`: one pop when
the value is known; otherwise one pop that pushes the unknown parents,
the cost of resolving each parent, and one final computing pop. -/
def consumeFuel (D : Nat) : Nat → Nat
  | 0 => 1
  | h + 1 => 2 + D * consumeFuel D h

theorem one_le_consumeFuel (D : Nat) : ∀ h, 1 ≤ consumeFuel D h
  | 0 => le_refl 1
  | _ + 1 => by simp [consumeFuel]; omega

/-- Fuel with which the backward-traversal loops are run: enough to
resolve every target (rank is at most the length of the topological
order, in-degree at most the number of nodes). -/
def pfuelBound (M : SFM ν α) (targets : List ν) : Nat :=
  targets.length * consumeFuel M.nodes.length M.topological_order.length + 1

/-- The stack-driven loop of `partial_vfi` (`sfm/partial.py`), embedded
with explicit fuel (`none` = fuel exhausted; the Python `while` loop has
no such bound, and the termination theorem shows the chosen fuel is
never exhausted).  The head of the list is the top of the stack; pushing
the popped node back and then extending with the unknown parents makes
the stack `unknown_parents.reverse ++ node :: rest`.  A node with no
parents and no value is dropped (the code does nothing for it), and the
log records each structural-function invocation (`COUNT`). -/
def pvfiLoop (M : SFM ν α) : Nat → List ν → Assignment ν α → List ν →
    Option (Assignment ν α × List ν)
  | _, [], w, log => some (w, log)
  | 0, _ :: _, _, _ => none
  | fuel + 1, node :: stack, w, log =>
    if dcontains w node then pvfiLoop M fuel stack w log
    else if (M.parents node).isEmpty then pvfiLoop M fuel stack w log
    else
      let unknown_parents := (M.parents node).filter (fun p => ! dcontains w p)
      if unknown_parents.isEmpty then
        pvfiLoop M fuel stack (dinsert w node (M.functions node w)) (node :: log)
      else
        pvfiLoop M fuel (unknown_parents.reverse ++ node :: stack) w log

/-- Embedding of a Python dict comprehension `{u: f(u) for u in keys}`. -/
def dictOfKeys (f : ν → α) : List ν → Assignment ν α → Assignment ν α
  | [], acc => acc
  | u :: rest, acc => dictOfKeys f rest (dinsert acc u (f u))

theorem dget_dictOfKeys (f : ν → α) (keys : List ν) (acc : Assignment ν α)
    (u : ν) :
    dget (dictOfKeys f keys acc) u =
      if u ∈ keys then some (f u) else dget acc u := by
  induction keys generalizing acc with
  | nil => simp [dictOfKeys]
  | cons x rest ih =>
    rw [dictOfKeys, ih]
    by_cases hmem : u ∈ rest
    · simp [hmem]
    · by_cases hx : x = u
      · subst hx
        simp [hmem, dget_dinsert]
      · have : ¬ u = x := fun h => hx h.symm
        simp [hmem, dget_dinsert, hx, this]

/-- Embedding of `partial_vfi` (`sfm/partial.py`): goal-directed vanilla
forward inference by iterative backward traversal.  Asserts the DAG
check, exact root coverage, and that every target is a graph node; then
runs the stack loop seeded with the targets and returns the restriction
of the memo table to the targets, paired with the invocation log. -/
def pvfi [Inhabited α] (M : SFM ν α) (w_exo : Assignment ν α)
    (target_nodes : List ν) :
    Except SFMError (Option (Assignment ν α × List ν)) :=
  if ¬ M.is_directed_acyclic_graph then .error .StructuralError
  else if ¬ keysEq w_exo M.exo_nodes then .error .InputCoverageError
  else if ¬ target_nodes.all (fun u => decide (u ∈ M.nodes)) then
    .error .InvalidTargetError
  else
    match pvfiLoop M (pfuelBound M target_nodes) target_nodes w_exo [] with
    | none => .ok none
    | some (w, log) =>
      .ok (some (dictOfKeys (fun u => dget! w u) target_nodes [], log))

/-- Invariant of the `partial_vfi` stack loop: the memo table contains
all the supplied root values, every memoized value agrees with the full
evaluation result, and the invocation log lists distinct memoized
endogenous nodes. -/
def PvfiInv (M : SFM ν α) (wexo w : Assignment ν α) (log : List ν) : Prop :=
  (∀ u, dcontains wexo u = true → dcontains w u = true) ∧
  (∀ u, dcontains w u = true →
    dget w u = dget (vfiLoop M M.topological_order wexo) u) ∧
  (log.Nodup ∧ ∀ u ∈ log, dcontains w u = true ∧ u ∈ M.endo_nodes)

theorem dcontains_dinsert (w : Assignment ν α) (k : ν) (v : α) (x : ν) :
    dcontains (dinsert w k v) x = true ↔ (k = x ∨ dcontains w x = true) := by
  rw [dcontains, dget_dinsert]
  by_cases hk : k = x <;> simp [hk, dcontains]

theorem dcontains_eq_of_dget_eq {w w' : Assignment ν α} {u : ν}
    (h : dget w' u = dget w u) : dcontains w' u = dcontains w u := by
  rw [dcontains, dcontains, h]

theorem pvfi_consume {M : SFM ν α} (hWF : M.WF) (hpure : PureFns M)
    {wexo : Assignment ν α} (hkeys : keysEq wexo M.exo_nodes = true) :
    ∀ (h : Nat) (x : ν), x ∈ M.nodes → M.rank x ≤ h →
    ∀ (w : Assignment ν α) (log stack : List ν), PvfiInv M wexo w log →
    ∃ n w' log', n ≤ consumeFuel M.nodes.length h ∧
      (∀ fuel, pvfiLoop M (fuel + n) (x :: stack) w log =
        pvfiLoop M fuel stack w' log') ∧
      PvfiInv M wexo w' log' ∧
      (∀ u, dcontains w u = true → dget w' u = dget w u) ∧
      dcontains w' x = true ∧
      (∀ u, dcontains w' u = true → dcontains w u = true ∨ Reaches M u x) ∧
      (∀ u, u ∈ log' → u ∈ log ∨ Reaches M u x) := by
  intro h
  induction h using Nat.strong_induction_on with
  | _ h ih =>
    intro x hx hrank w log stack hinv
    by_cases hc : dcontains w x = true
    · -- value already memoized: one known-pop
      refine ⟨1, w, log, one_le_consumeFuel _ h, ?_, hinv, fun u _ => rfl, hc,
        fun u hu => Or.inl hu, fun u hu => Or.inl hu⟩
      intro fuel
      simp [pvfiLoop, hc]
    · have hnotexo : x ∉ M.exo_nodes := by
        intro hmem
        exact hc (hinv.1 x (keysEq_mem_right hkeys hmem))
      have hparents : M.parents x ≠ [] := by
        intro hnil
        exact hnotexo ((M.mem_exo_iff x).mpr ⟨hx, hnil⟩)
      have hparE : (M.parents x).isEmpty = false := by
        simpa [List.isEmpty_iff] using hparents
      have hxendo : x ∈ M.endo_nodes := (M.mem_endo_iff x).mpr ⟨hx, hparents⟩
      -- a computing pop from a state where all parents are memoized
      have computeStep : ∀ (w1 : Assignment ν α) (log1 : List ν),
          PvfiInv M wexo w1 log1 → ¬ dcontains w1 x = true →
          (∀ p ∈ M.parents x, dcontains w1 p = true) →
          (∀ (fuel : Nat) (stack1 : List ν),
            pvfiLoop M (fuel + 1) (x :: stack1) w1 log1 =
              pvfiLoop M fuel stack1 (dinsert w1 x (M.functions x w1))
                (x :: log1)) ∧
          PvfiInv M wexo (dinsert w1 x (M.functions x w1)) (x :: log1) := by
        intro w1 log1 hinv1 hc1 hpall
        have hflt : ((M.parents x).filter (fun p => ! dcontains w1 p)) = [] := by
          apply List.filter_eq_nil_iff.mpr
          intro p hp
          simp [hpall p hp]
        constructor
        · intro fuel stack1
          simp [pvfiLoop, hc1, hparE, hflt]
        · have hval : M.functions x w1 =
              M.functions x (vfiLoop M M.topological_order wexo) := by
            apply hpure x hx
            intro p hp
            exact hinv1.2.1 p (hpall p hp)
          have hsats : Sats M wexo (vfiLoop M M.topological_order wexo) :=
            vfi_sats hWF hpure hkeys
          have hW1x : dget (vfiLoop M M.topological_order wexo) x =
              some (M.functions x w1) := by
            rw [hsats.2.1 x hxendo, hval]
          have hxnotlog : x ∉ log1 := fun hmem => hc1 (hinv1.2.2.2 x hmem).1
          refine ⟨?_, ?_, ?_, ?_⟩
          · intro u hu
            exact (dcontains_dinsert _ _ _ _).mpr (Or.inr (hinv1.1 u hu))
          · intro u hu
            rw [dget_dinsert]
            by_cases hux : x = u
            · subst hux
              simp [hW1x]
            · simp only [hux, if_false]
              apply hinv1.2.1 u
              rcases (dcontains_dinsert _ _ _ _).mp hu with h' | h'
              · exact absurd h' hux
              · exact h'
          · exact List.nodup_cons.mpr ⟨hxnotlog, hinv1.2.2.1⟩
          · intro u hu
            rcases List.mem_cons.mp hu with h' | h'
            · subst h'
              exact ⟨(dcontains_dinsert _ _ _ _).mpr (Or.inl rfl), hxendo⟩
            · obtain ⟨h1, h2⟩ := hinv1.2.2.2 u h'
              exact ⟨(dcontains_dinsert _ _ _ _).mpr (Or.inr h1), h2⟩
      by_cases hall : ∀ p ∈ M.parents x, dcontains w p = true
      · -- first visit already finds all parents memoized: compute now
        obtain ⟨htr, hinv'⟩ := computeStep w log hinv hc hall
        refine ⟨1, dinsert w x (M.functions x w), x :: log,
          one_le_consumeFuel _ h, fun fuel => htr fuel stack, hinv', ?_, ?_, ?_, ?_⟩
        · intro u hu
          rw [dget_dinsert]
          have : ¬ x = u := fun he => hc (he ▸ hu)
          simp [this]
        · exact (dcontains_dinsert _ _ _ _).mpr (Or.inl rfl)
        · intro u hu
          rcases (dcontains_dinsert _ _ _ _).mp hu with h' | h'
          · exact Or.inr (show Reaches M u x by subst h'; exact Reaches.refl _)
          · exact Or.inl h'
        · intro u hu
          rcases List.mem_cons.mp hu with h' | h'
          · exact Or.inr (show Reaches M u x by subst h'; exact Reaches.refl _)
          · exact Or.inl h'
      · -- some parent is unknown: push the node back under its parents
        push_neg at hall
        obtain ⟨p0, hp0, hp0n⟩ := hall
        have hp0rank : M.rank p0 < M.rank x := hWF.parents_rank x hx p0 hp0
        obtain ⟨h', rfl⟩ : ∃ h', h = h' + 1 := ⟨h - 1, by omega⟩
        have hranklt : ∀ p ∈ M.parents x, M.rank p ≤ h' := by
          intro p hp
          have := hWF.parents_rank x hx p hp
          omega
        set unk := (M.parents x).filter (fun p => ! dcontains w p) with hunk
        have hunkmem : ∀ q ∈ unk, q ∈ M.parents x := by
          intro q hq
          exact (List.mem_filter.mp (hunk ▸ hq)).1
        have hp0unk : p0 ∈ unk := by
          rw [hunk]
          exact List.mem_filter.mpr ⟨hp0, by simp [hp0n]⟩
        have hunkne : unk ≠ [] := by
          intro hnil
          rw [hnil] at hp0unk
          simp at hp0unk
        have hunkE : unk.isEmpty = false := by
          simpa [List.isEmpty_iff] using hunkne
        have step1 : ∀ fuel, pvfiLoop M (fuel + 1) (x :: stack) w log =
            pvfiLoop M fuel (unk.reverse ++ x :: stack) w log := by
          intro fuel
          rw [pvfiLoop]
          simp only [hc, if_false, hparE, Bool.false_eq_true]
          rw [← hunk]
          simp [hunkE]
        -- consume a list of entries whose rank is at most h'
        have listCons : ∀ (l : List ν), (∀ q ∈ l, q ∈ M.nodes ∧ M.rank q ≤ h') →
            ∀ (w1 : Assignment ν α) (log1 stack1 : List ν), PvfiInv M wexo w1 log1 →
            ∃ n w2 log2, n ≤ l.length * consumeFuel M.nodes.length h' ∧
              (∀ fuel, pvfiLoop M (fuel + n) (l ++ stack1) w1 log1 =
                pvfiLoop M fuel stack1 w2 log2) ∧
              PvfiInv M wexo w2 log2 ∧
              (∀ u, dcontains w1 u = true → dget w2 u = dget w1 u) ∧
              (∀ q ∈ l, dcontains w2 q = true) ∧
              (∀ u, dcontains w2 u = true →
                dcontains w1 u = true ∨ ∃ q ∈ l, Reaches M u q) ∧
              (∀ u, u ∈ log2 → u ∈ log1 ∨ ∃ q ∈ l, Reaches M u q) := by
          intro l
          induction l with
          | nil =>
            intro _ w1 log1 stack1 hinv1
            exact ⟨0, w1, log1, by simp, fun fuel => by simp, hinv1,
              fun u _ => rfl, by simp, fun u hu => Or.inl hu, fun u hu => Or.inl hu⟩
          | cons q lrest ihl =>
            intro hmem w1 log1 stack1 hinv1
            obtain ⟨n1, wa, loga, hn1, htr1, hinva, hpresa, hconta, hdoma, hloga⟩ :=
              ih h' (by omega) q (hmem q (by simp)).1 (hmem q (by simp)).2 w1 log1
                (lrest ++ stack1) hinv1
            obtain ⟨n2, wb, logb, hn2, htr2, hinvb, hpresb, hcontb, hdomb, hlogb⟩ :=
              ihl (fun r hr => hmem r (by simp [hr])) wa loga stack1 hinva
            refine ⟨n2 + n1, wb, logb, ?_, ?_, hinvb, ?_, ?_, ?_, ?_⟩
            · have : n2 + n1 ≤ lrest.length * consumeFuel M.nodes.length h' +
                  consumeFuel M.nodes.length h' := add_le_add hn2 hn1
              calc n2 + n1 ≤ lrest.length * consumeFuel M.nodes.length h' +
                  consumeFuel M.nodes.length h' := this
                _ = (q :: lrest).length * consumeFuel M.nodes.length h' := by
                  simp [List.length_cons]
                  ring
            · intro fuel
              have e : fuel + (n2 + n1) = (fuel + n2) + n1 := by omega
              rw [e, List.cons_append]
              exact (htr1 (fuel + n2)).trans (htr2 fuel)
            · intro u hu
              have h1 := hpresa u hu
              have hua : dcontains wa u = true := by
                rw [dcontains_eq_of_dget_eq h1]
                exact hu
              rw [hpresb u hua, h1]
            · intro r hr
              rcases List.mem_cons.mp hr with h1 | h1
              · subst h1
                have : dcontains wa r = true := hconta
                rw [dcontains_eq_of_dget_eq (hpresb r this)]
                exact this
              · exact hcontb r h1
            · intro u hu
              rcases hdomb u hu with h1 | ⟨r, hr, hre⟩
              · rcases hdoma u h1 with h2 | h2
                · exact Or.inl h2
                · exact Or.inr ⟨q, by simp, h2⟩
              · exact Or.inr ⟨r, by simp [hr], hre⟩
            · intro u hu
              rcases hlogb u hu with h1 | ⟨r, hr, hre⟩
              · rcases hloga u h1 with h2 | h2
                · exact Or.inl h2
                · exact Or.inr ⟨q, by simp, h2⟩
              · exact Or.inr ⟨r, by simp [hr], hre⟩
        have hmemrev : ∀ q ∈ unk.reverse, q ∈ M.nodes ∧ M.rank q ≤ h' := by
          intro q hq
          have hqpar : q ∈ M.parents x := hunkmem q (List.mem_reverse.mp hq)
          exact ⟨hWF.parents_mem x hx q hqpar, hranklt q hqpar⟩
        obtain ⟨n1, w1, log1, hn1, htr1, hinv1, hpres1, hcont1, hdom1, hlog1⟩ :=
          listCons unk.reverse hmemrev w log (x :: stack) hinv
        have hxnot1 : ¬ dcontains w1 x = true := by
          intro hcon
          rcases hdom1 x hcon with h1 | ⟨q, hq, hre⟩
          · exact hc h1
          · have hqpar : q ∈ M.parents x := hunkmem q (List.mem_reverse.mp hq)
            have hqn : q ∈ M.nodes := hWF.parents_mem x hx q hqpar
            have := (Reaches.rank_le hWF hre hqn).2
            have := hWF.parents_rank x hx q hqpar
            omega
        have hall1 : ∀ p ∈ M.parents x, dcontains w1 p = true := by
          intro p hp
          by_cases hcp : dcontains w p = true
          · rw [dcontains_eq_of_dget_eq (hpres1 p hcp)]
            exact hcp
          · apply hcont1
            rw [List.mem_reverse, hunk]
            exact List.mem_filter.mpr ⟨hp, by simp [hcp]⟩
        obtain ⟨htr2, hinv2⟩ := computeStep w1 log1 hinv1 hxnot1 hall1
        have hunklen : unk.reverse.length ≤ M.nodes.length := by
          rw [List.length_reverse]
          have h1 : unk.length ≤ (M.parents x).length := by
            rw [hunk]
            exact List.length_filter_le _ _
          have h2 : (M.parents x).length ≤ M.nodes.length :=
            nodup_subset_length_le (hWF.parents_nodup x hx)
              (fun q hq => hWF.parents_mem x hx q hq)
          omega
        refine ⟨n1 + 2, dinsert w1 x (M.functions x w1), x :: log1, ?_, ?_,
          hinv2, ?_, ?_, ?_, ?_⟩
        · have hm : n1 ≤ M.nodes.length * consumeFuel M.nodes.length h' := by
            calc n1 ≤ unk.reverse.length * consumeFuel M.nodes.length h' := hn1
              _ ≤ M.nodes.length * consumeFuel M.nodes.length h' :=
                Nat.mul_le_mul_right _ hunklen
          rw [consumeFuel]
          omega
        · intro fuel
          have e : fuel + (n1 + 2) = (((fuel + 1) + n1) + 1) := by omega
          rw [e, step1 ((fuel + 1) + n1)]
          exact (htr1 (fuel + 1)).trans (htr2 fuel stack)
        · intro u hu
          have h1 := hpres1 u hu
          rw [dget_dinsert]
          have hne : ¬ x = u := fun he => hc (he ▸ hu)
          simp only [hne, if_false]
          exact h1
        · exact (dcontains_dinsert _ _ _ _).mpr (Or.inl rfl)
        · intro u hu
          rcases (dcontains_dinsert _ _ _ _).mp hu with h1 | h1
          · exact Or.inr (show Reaches M u x by subst h1; exact Reaches.refl _)
          · rcases hdom1 u h1 with h2 | ⟨q, hq, hre⟩
            · exact Or.inl h2
            · exact Or.inr (Reaches.step (hunkmem q (List.mem_reverse.mp hq)) hre)
        · intro u hu
          rcases List.mem_cons.mp hu with h1 | h1
          · exact Or.inr (show Reaches M u x by subst h1; exact Reaches.refl _)
          · rcases hlog1 u h1 with h2 | ⟨q, hq, hre⟩
            · exact Or.inl h2
            · exact Or.inr (Reaches.step (hunkmem q (List.mem_reverse.mp hq)) hre)

theorem pvfi_consumeList {M : SFM ν α} (hWF : M.WF) (hpure : PureFns M)
    {wexo : Assignment ν α} (hkeys : keysEq wexo M.exo_nodes = true) :
    ∀ (l : List ν), (∀ q ∈ l, q ∈ M.nodes) →
    ∀ (w : Assignment ν α) (log stack : List ν), PvfiInv M wexo w log →
    ∃ n w2 log2,
      n ≤ l.length * consumeFuel M.nodes.length M.topological_order.length ∧
      (∀ fuel, pvfiLoop M (fuel + n) (l ++ stack) w log =
        pvfiLoop M fuel stack w2 log2) ∧
      PvfiInv M wexo w2 log2 ∧
      (∀ u, dcontains w u = true → dget w2 u = dget w u) ∧
      (∀ q ∈ l, dcontains w2 q = true) ∧
      (∀ u, u ∈ log2 → u ∈ log ∨ ∃ q ∈ l, Reaches M u q) := by
  intro l
  induction l with
  | nil =>
    intro _ w log stack hinv
    exact ⟨0, w, log, by simp, fun fuel => by simp, hinv, fun u _ => rfl,
      by simp, fun u hu => Or.inl hu⟩
  | cons q lrest ihl =>
    intro hmem w log stack hinv
    obtain ⟨n1, wa, loga, hn1, htr1, hinva, hpresa, hconta, _, hloga⟩ :=
      pvfi_consume hWF hpure hkeys M.topological_order.length q
        (hmem q (by simp)) (lidx_le_length _ _) w log (lrest ++ stack) hinv
    obtain ⟨n2, wb, logb, hn2, htr2, hinvb, hpresb, hcontb, hlogb⟩ :=
      ihl (fun r hr => hmem r (by simp [hr])) wa loga stack hinva
    refine ⟨n2 + n1, wb, logb, ?_, ?_, hinvb, ?_, ?_, ?_⟩
    · have hsum : n2 + n1 ≤
          lrest.length * consumeFuel M.nodes.length M.topological_order.length +
          consumeFuel M.nodes.length M.topological_order.length :=
        add_le_add hn2 hn1
      calc n2 + n1 ≤ lrest.length *
            consumeFuel M.nodes.length M.topological_order.length +
            consumeFuel M.nodes.length M.topological_order.length := hsum
        _ = (q :: lrest).length *
            consumeFuel M.nodes.length M.topological_order.length := by
          simp [List.length_cons]
          ring
    · intro fuel
      have e : fuel + (n2 + n1) = (fuel + n2) + n1 := by omega
      rw [e, List.cons_append]
      exact (htr1 (fuel + n2)).trans (htr2 fuel)
    · intro u hu
      have h1 := hpresa u hu
      have hua : dcontains wa u = true := by
        rw [dcontains_eq_of_dget_eq h1]
        exact hu
      rw [hpresb u hua, h1]
    · intro r hr
      rcases List.mem_cons.mp hr with h1 | h1
      · subst h1
        have hra : dcontains wa r = true := hconta
        rw [dcontains_eq_of_dget_eq (hpresb r hra)]
        exact hra
      · exact hcontb r h1
    · intro u hu
      rcases hlogb u hu with h1 | ⟨r, hr, hre⟩
      · rcases hloga u h1 with h2 | h2
        · exact Or.inl h2
        · exact Or.inr ⟨q, by simp, h2⟩
      · exact Or.inr ⟨r, by simp [hr], hre⟩

theorem pvfiLoop_nil (M : SFM ν α) (fuel : Nat) (w : Assignment ν α)
    (log : List ν) : pvfiLoop M fuel [] w log = some (w, log) := by
  cases fuel <;> rfl

theorem pvfi_run [Inhabited α] {M : SFM ν α} (hWF : M.WF) (hpure : PureFns M)
    {wexo : Assignment ν α} (hkeys : keysEq wexo M.exo_nodes = true)
    {T : List ν} (hT : ∀ t ∈ T, t ∈ M.nodes) :
    ∃ w' log, pvfiLoop M (pfuelBound M T) T wexo [] = some (w', log) ∧
      PvfiInv M wexo w' log ∧ (∀ t ∈ T, dcontains w' t = true) ∧
      (∀ u ∈ log, ∃ t ∈ T, Reaches M u t) := by
  have hinv0 : PvfiInv M wexo wexo [] := by
    refine ⟨fun u hu => hu, ?_, List.nodup_nil, by simp⟩
    intro u hu
    exact (vfiLoop_preserve M.topological_order hu).symm
  obtain ⟨n, w', log, hn, htr, hinv, _, hcont, hlog⟩ :=
    pvfi_consumeList hWF hpure hkeys T hT wexo [] [] hinv0
  have hfuel : pfuelBound M T = (pfuelBound M T - n) + n := by
    unfold pfuelBound
    omega
  refine ⟨w', log, ?_, hinv, hcont, ?_⟩
  · rw [hfuel]
    have := htr (pfuelBound M T - n)
    rw [List.append_nil] at this
    rw [this, pvfiLoop_nil]
  · intro u hu
    rcases hlog u hu with h | h
    · simp at h
    · exact h

theorem pvfi_ok_full [Inhabited α] {M : SFM ν α} (hWF : M.WF) (hpure : PureFns M)
    {wexo : Assignment ν α} {T : List ν}
    (hkeys : keysEq wexo M.exo_nodes = true) (hT : ∀ t ∈ T, t ∈ M.nodes) :
    ∃ res log, pvfi M wexo T = Except.ok (some (res, log)) ∧
      (∀ u, dget res u =
        if u ∈ T then dget (vfiLoop M M.topological_order wexo) u else none) ∧
      log.Nodup ∧ (∀ u ∈ log, u ∈ M.endo_nodes ∧ ∃ t ∈ T, Reaches M u t) := by
  obtain ⟨w', log, hloop, hinv, hcont, hclos⟩ := pvfi_run hWF hpure hkeys hT
  have hTcheck : (T.all fun u => decide (u ∈ M.nodes)) = true := by
    simp only [List.all_eq_true, decide_eq_true_eq]
    exact hT
  refine ⟨dictOfKeys (fun u => dget! w' u) T [], log, ?_, ?_, hinv.2.2.1, ?_⟩
  · simp [pvfi, hWF.acyclic, hkeys, hTcheck, hloop]
  · intro u
    rw [dget_dictOfKeys]
    by_cases hu : u ∈ T
    · simp only [hu, if_true]
      rw [← dget_eq_some_getD (hcont u hu)]
      exact hinv.2.1 u (hcont u hu)
    · simp [hu, dget]
  · intro u hu
    exact ⟨(hinv.2.2.2 u hu).2, hclos u hu⟩

/-- C2.  Partial/full equivalence: for an acyclic model with pure
deterministic node functions, a root assignment covering exactly the
roots, and any target subset of the nodes, `partial_vfi` succeeds and
returns exactly the restriction to the targets of the assignment
returned by full evaluation `vfi` on the same inputs. -/
theorem pvfi_restriction_equivalence [Inhabited α] {M : SFM ν α} (hWF : M.WF)
    (hpure : PureFns M) {wexo : Assignment ν α} {T : List ν}
    (hkeys : keysEq wexo M.exo_nodes = true) (hT : ∀ t ∈ T, t ∈ M.nodes) :
    ∃ W, vfi M wexo = Except.ok W ∧
      ∃ res log, pvfi M wexo T = Except.ok (some (res, log)) ∧
        ∀ u, dget res u = if u ∈ T then dget W u else none := by
  obtain ⟨res, log, hok, hres, _, _⟩ := pvfi_ok_full hWF hpure hkeys hT
  exact ⟨_, vfi_ok hWF hkeys, res, log, hok, hres⟩

/-- The `changed` dictionary `partial_cfi` starts from
(`sfm/partial.py`): one entry per changed-exo key, flagged by comparison
with the baseline. -/
def pcfiInitChanged [Inhabited α] (w1ce w0 : Assignment ν α) : Assignment ν Bool :=
  dictOfKeys (fun u => decide (dget! w1ce u ≠ dget! w0 u)) (dkeys w1ce) []

/-- The `w1_c` dictionary `partial_cfi` starts from: the changed-exo
entries whose value actually differs from the baseline. -/
def pcfiInitW1c [Inhabited α] (w1ce w0 : Assignment ν α) : Assignment ν α :=
  w1ce.filter (fun kv => decide (kv.2 ≠ dget! w0 kv.1))

theorem dget_pcfiInitChanged [Inhabited α] (w1ce w0 : Assignment ν α) (u : ν) :
    dget (pcfiInitChanged w1ce w0) u =
      if u ∈ dkeys w1ce then some (decide (dget! w1ce u ≠ dget! w0 u))
      else none := by
  rw [pcfiInitChanged, dget_dictOfKeys]
  by_cases hu : u ∈ dkeys w1ce <;> simp [hu, dget]

theorem dget_pcfiInitW1c [Inhabited α] {w1ce : Assignment ν α}
    (h : NodupKeys w1ce) (w0 : Assignment ν α) (x : ν) :
    dget (pcfiInitW1c w1ce w0) x =
      match dget w1ce x with
      | none => none
      | some v => if v ≠ dget! w0 x then some v else none := by
  induction w1ce with
  | nil => simp [pcfiInitW1c, dget]
  | cons kv rest ih =>
    obtain ⟨node, v⟩ := kv
    have hrest : NodupKeys rest := by
      simp [NodupKeys, dkeys] at h
      exact h.2
    have hnotin : node ∉ dkeys rest := by
      simp [NodupKeys, dkeys] at h
      simpa [dkeys] using h.1
    by_cases hx : node = x
    · subst hx
      have hnone : dget rest node = none := by
        by_contra hne
        rcases Option.ne_none_iff_exists'.mp hne with ⟨v0, hv0⟩
        exact hnotin ((mem_dkeys_iff_dcontains rest node).mpr
          (dcontains_of_dget_eq_some hv0))
      have hih := ih hrest
      rw [hnone] at hih
      by_cases hval : v ≠ dget! w0 node
      · simp [pcfiInitW1c, List.filter_cons, hval, dget]
      · rw [pcfiInitW1c] at hih
        simp only [ne_eq, decide_not] at hih
        simp [pcfiInitW1c, List.filter_cons, hval, dget, hih]
    · have hih := ih hrest
      rw [pcfiInitW1c] at hih
      simp only [ne_eq, decide_not] at hih
      by_cases hval : v ≠ dget! w0 node
      · simpa [pcfiInitW1c, List.filter_cons, hval, dget, hx] using hih
      · simpa [pcfiInitW1c, List.filter_cons, hval, dget, hx] using hih

/-- The stack-driven loop of `partial_cfi` (`sfm/partial.py`), with
explicit fuel as in `pvfiLoop`.  A popped, still-unclassified node is
resolved clean if exogenous (all changed exo nodes are classified during
initialization); an endogenous node waits for its parents, then either
inherits the baseline (no changed parent, no invocation) or is
recomputed from a mix of new and baseline parent values and compared
against the baseline for demotion.  The log records each
structural-function invocation (`COUNT`). -/
def pcfiLoop [Inhabited α] (M : SFM ν α) (w0 : Assignment ν α) :
    Nat → List ν → Assignment ν Bool → Assignment ν α → List ν →
    Option (Assignment ν Bool × Assignment ν α × List ν)
  | _, [], changed, w1c, log => some (changed, w1c, log)
  | 0, _ :: _, _, _, _ => none
  | fuel + 1, node :: stack, changed, w1c, log =>
    if dcontains changed node then pcfiLoop M w0 fuel stack changed w1c log
    else if M.is_exo_node node then
      pcfiLoop M w0 fuel stack (dinsert changed node false) w1c log
    else
      let unknown_parents := (M.parents node).filter (fun p => ! dcontains changed p)
      if unknown_parents.isEmpty then
        let w_parents := dictOfKeys
          (fun p => if dget! changed p then dget! w1c p else dget! w0 p)
          (M.parents node) []
        if (M.parents node).any (fun p => dget! changed p) then
          let value := M.functions node w_parents
          if value ≠ dget! w0 node then
            pcfiLoop M w0 fuel stack (dinsert changed node true)
              (dinsert w1c node value) (node :: log)
          else
            pcfiLoop M w0 fuel stack (dinsert changed node false) w1c (node :: log)
        else
          pcfiLoop M w0 fuel stack (dinsert changed node false) w1c log
      else
        pcfiLoop M w0 fuel (unknown_parents.reverse ++ node :: stack) changed w1c log

/-- Embedding of `partial_cfi` (`sfm/partial.py`): goal-directed
contrastive forward inference.  Asserts the DAG check, raises
`ValueError` when a changed key is not exogenous or a target is not a
graph node, runs the lazy dirtiness-resolving stack loop seeded with the
targets, and returns, for each target, the new value if it changed and
the baseline value otherwise, paired with the invocation log. -/
def pcfi [Inhabited α] (M : SFM ν α) (w0 w1_changed_exo : Assignment ν α)
    (target_nodes : List ν) :
    Except SFMError (Option (Assignment ν α × List ν)) :=
  if ¬ M.is_directed_acyclic_graph then .error .StructuralError
  else if ¬ (dkeys w1_changed_exo).all (fun u => M.is_exo_node u) then
    .error .InvalidChangeSetError
  else if ¬ target_nodes.all (fun u => decide (u ∈ M.nodes)) then
    .error .InvalidTargetError
  else
    match pcfiLoop M w0 (pfuelBound M target_nodes) target_nodes
        (pcfiInitChanged w1_changed_exo w0) (pcfiInitW1c w1_changed_exo w0) [] with
    | none => .ok none
    | some (changed, w1c, log) =>
      .ok (some (dictOfKeys
        (fun u => if dget! changed u then dget! w1c u else dget! w0 u)
        target_nodes [], log))

theorem pcfiLoop_nil [Inhabited α] (M : SFM ν α) (w0 : Assignment ν α)
    (fuel : Nat) (changed : Assignment ν Bool) (w1c : Assignment ν α)
    (log : List ν) : pcfiLoop M w0 fuel [] changed w1c log =
      some (changed, w1c, log) := by
  cases fuel <;> rfl

/-- Invariant of the `partial_cfi` stack loop: classified nodes carry
their correct final flag, changed values agree with the ground truth,
`w1_c` only holds changed nodes, and the invocation log lists distinct
classified endogenous nodes each having some finally-changed parent. -/
def PcfiInv [Inhabited α] (M : SFM ν α) (w1ce w0 : Assignment ν α)
    (changed : Assignment ν Bool) (w1c : Assignment ν α) (log : List ν) : Prop :=
  (∀ u ∈ dkeys w1ce, dcontains changed u = true) ∧
  (∀ u b, dget changed u = some b → u ∈ M.nodes ∧ b = cfiFinalFlag M w1ce w0 u) ∧
  (∀ u, dget changed u = some true →
    dget w1c u = dget (cfiTruth M w1ce w0) u) ∧
  (∀ u, dcontains w1c u = true → dget changed u = some true) ∧
  (log.Nodup ∧ ∀ u ∈ log, dcontains changed u = true ∧ u ∈ M.endo_nodes ∧
    ∃ p ∈ M.parents u, dget changed p = some true)

theorem PcfiInv_extend [Inhabited α] {M : SFM ν α} {w1ce w0 : Assignment ν α}
    {changed : Assignment ν Bool} {w1c : Assignment ν α} {log : List ν}
    (hinv : PcfiInv M w1ce w0 changed w1c log) {x : ν} (hx : x ∈ M.nodes)
    (hunres : ¬ dcontains changed x = true) {b : Bool}
    (hb : b = cfiFinalFlag M w1ce w0 x) {w1c' : Assignment ν α} {log' : List ν}
    (hw1cx : b = true → dget w1c' x = dget (cfiTruth M w1ce w0) x)
    (hw1cxf : b = false → ¬ dcontains w1c' x = true)
    (hw1cother : ∀ u, ¬ x = u → dget w1c' u = dget w1c u)
    (hlog' : log' = log ∨ (log' = x :: log ∧ x ∈ M.endo_nodes ∧
      ∃ p ∈ M.parents x, dget changed p = some true)) :
    PcfiInv M w1ce w0 (dinsert changed x b) w1c' log' := by
  obtain ⟨h1, h2, h3, h4, h5n, h5⟩ := hinv
  have hne_of_res : ∀ u bu, dget changed u = some bu → ¬ x = u := by
    intro u bu hu he
    subst he
    exact hunres (dcontains_of_dget_eq_some hu)
  refine ⟨?_, ?_, ?_, ?_, ?_, ?_⟩
  · intro u hu
    exact (dcontains_dinsert _ _ _ _).mpr (Or.inr (h1 u hu))
  · intro u bu hu
    rw [dget_dinsert] at hu
    by_cases hxu : x = u
    · subst hxu
      simp at hu
      exact ⟨hx, hu ▸ hb⟩
    · simp only [hxu, if_false] at hu
      exact h2 u bu hu
  · intro u hu
    rw [dget_dinsert] at hu
    by_cases hxu : x = u
    · subst hxu
      simp at hu
      rw [hw1cx (hu ▸ rfl)]
    · simp only [hxu, if_false] at hu
      rw [hw1cother u hxu]
      exact h3 u hu
  · intro u hu
    rw [dget_dinsert]
    by_cases hxu : x = u
    · subst hxu
      simp only [if_pos rfl]
      cases hbv : b with
      | true => rfl
      | false => exact absurd hu (hw1cxf hbv)
    · simp only [hxu, if_false]
      have : dcontains w1c u = true := by
        rw [dcontains, ← hw1cother u hxu]
        exact hu
      exact h4 u this
  · rcases hlog' with h | ⟨h, _, _⟩
    · subst h; exact h5n
    · subst h
      refine List.nodup_cons.mpr ⟨?_, h5n⟩
      intro hmem
      exact hunres (h5 x hmem).1
  · rcases hlog' with h | ⟨h, hendo, p, hp, hpsome⟩
    · subst h
      intro u hu
      obtain ⟨hu1, hu2, q, hq, hqsome⟩ := h5 u hu
      refine ⟨(dcontains_dinsert _ _ _ _).mpr (Or.inr hu1), hu2, q, hq, ?_⟩
      rw [dget_dinsert]
      simp [hne_of_res q true hqsome, hqsome]
    · subst h
      intro u hu
      rcases List.mem_cons.mp hu with h' | h'
      · subst h'
        refine ⟨(dcontains_dinsert _ _ _ _).mpr (Or.inl rfl), hendo, p, hp, ?_⟩
        rw [dget_dinsert]
        simp [hne_of_res p true hpsome, hpsome]
      · obtain ⟨hu1, hu2, q, hq, hqsome⟩ := h5 u h'
        refine ⟨(dcontains_dinsert _ _ _ _).mpr (Or.inr hu1), hu2, q, hq, ?_⟩
        rw [dget_dinsert]
        simp [hne_of_res q true hqsome, hqsome]

theorem pcfi_consume [Inhabited α] {M : SFM ν α} (hWF : M.WF) (hpure : PureFns M)
    {w0exo w0 w1ce : Assignment ν α}
    (hkeys0 : keysEq w0exo M.exo_nodes = true)
    (hw0 : w0 = vfiLoop M M.topological_order w0exo)
    (hCsub : ∀ u ∈ dkeys w1ce, u ∈ M.exo_nodes) (hCnodup : NodupKeys w1ce) :
    ∀ (h : Nat) (x : ν), x ∈ M.nodes → M.rank x ≤ h →
    ∀ (changed : Assignment ν Bool) (w1c : Assignment ν α) (log stack : List ν),
      PcfiInv M w1ce w0 changed w1c log →
    ∃ n changed' w1c' log', n ≤ consumeFuel M.nodes.length h ∧
      (∀ fuel, pcfiLoop M w0 (fuel + n) (x :: stack) changed w1c log =
        pcfiLoop M w0 fuel stack changed' w1c' log') ∧
      PcfiInv M w1ce w0 changed' w1c' log' ∧
      (∀ u b, dget changed u = some b → dget changed' u = some b) ∧
      dcontains changed' x = true ∧
      (∀ u, dcontains changed' u = true →
        dcontains changed u = true ∨ Reaches M u x) ∧
      (∀ u, u ∈ log' → u ∈ log ∨ Reaches M u x) := by
  have hkeys1 : keysEq (cfiNewExo M w1ce w0) M.exo_nodes = true :=
    cfi_keysEq_newExo hWF hpure hkeys0 hw0 hCsub hCnodup
  have hsats1 : Sats M (cfiNewExo M w1ce w0) (cfiTruth M w1ce w0) :=
    vfi_sats hWF hpure hkeys1
  have hcovW1 : ∀ u ∈ M.nodes, dcontains (cfiTruth M w1ce w0) u = true := by
    intro u hu
    unfold cfiTruth
    exact vfiLoop_covers hWF hpure hkeys1 u hu
  have hcov0 : ∀ u ∈ M.nodes, dcontains w0 u = true := by
    intro u hu
    rw [hw0]
    exact vfiLoop_covers hWF hpure hkeys0 u hu
  intro h
  induction h using Nat.strong_induction_on with
  | _ h ih =>
    intro x hx hrank changed w1c log stack hinv
    by_cases hc : dcontains changed x = true
    · -- node already classified: one known-pop
      refine ⟨1, changed, w1c, log, one_le_consumeFuel _ h, ?_, hinv,
        fun u b hb => hb, hc, fun u hu => Or.inl hu, fun u hu => Or.inl hu⟩
      intro fuel
      simp [pcfiLoop, hc]
    by_cases hexo : x ∈ M.exo_nodes
    · -- exogenous node: classify clean (changed roots were preclassified)
      have hexoB : M.is_exo_node x = true := by simp [SFM.is_exo_node, hexo]
      have hnotkey : x ∉ dkeys w1ce := by
        intro hmem
        exact hc (hinv.1 x hmem)
      have hnotc : ¬ dcontains w1ce x = true := by
        intro hcon
        exact hnotkey ((mem_dkeys_iff_dcontains w1ce x).mpr hcon)
      have hflagF : cfiFinalFlag M w1ce w0 x = false := by
        rw [← cfi_exo_flag_correct hWF hpure hkeys0 hw0 hCsub hCnodup x hexo]
        simp [cfiInitFlag, hnotc]
      have hinv' : PcfiInv M w1ce w0 (dinsert changed x false) w1c log := by
        apply PcfiInv_extend hinv hx hc hflagF.symm
        · intro hcontra
          simp at hcontra
        · intro _
          intro hcon
          exact hc (dcontains_of_dget_eq_some (hinv.2.2.2.1 x hcon))
        · intro u _
          rfl
        · exact Or.inl rfl
      refine ⟨1, dinsert changed x false, w1c, log, one_le_consumeFuel _ h,
        ?_, hinv', ?_, ?_, ?_, fun u hu => Or.inl hu⟩
      · intro fuel
        simp [pcfiLoop, hc, hexoB]
      · intro u b hb
        rw [dget_dinsert]
        have : ¬ x = u := by
          intro he
          subst he
          exact hc (dcontains_of_dget_eq_some hb)
        simp [this, hb]
      · exact (dcontains_dinsert _ _ _ _).mpr (Or.inl rfl)
      · intro u hu
        rcases (dcontains_dinsert _ _ _ _).mp hu with h' | h'
        · exact Or.inr (show Reaches M u x by subst h'; exact Reaches.refl _)
        · exact Or.inl h'
    · -- endogenous node
      have hexoB : M.is_exo_node x = false := by simp [SFM.is_exo_node, hexo]
      have hparents : M.parents x ≠ [] := by
        intro hnil
        exact hexo ((M.mem_exo_iff x).mpr ⟨hx, hnil⟩)
      have hxendo : x ∈ M.endo_nodes := (M.mem_endo_iff x).mpr ⟨hx, hparents⟩
      have computeStep : ∀ (changed1 : Assignment ν Bool) (w1c1 : Assignment ν α)
          (log1 : List ν), PcfiInv M w1ce w0 changed1 w1c1 log1 →
          ¬ dcontains changed1 x = true →
          (∀ p ∈ M.parents x, dcontains changed1 p = true) →
          ∃ changed' w1c' log',
            (∀ (fuel : Nat) (stack1 : List ν),
              pcfiLoop M w0 (fuel + 1) (x :: stack1) changed1 w1c1 log1 =
                pcfiLoop M w0 fuel stack1 changed' w1c' log') ∧
            PcfiInv M w1ce w0 changed' w1c' log' ∧
            (∀ u b, dget changed1 u = some b → dget changed' u = some b) ∧
            dcontains changed' x = true ∧
            (∀ u, dcontains changed' u = true →
              dcontains changed1 u = true ∨ u = x) ∧
            (∀ u, u ∈ log' → u ∈ log1 ∨ u = x) := by
        intro changed1 w1c1 log1 hinv1 hc1 hpall
        have hpflags : ∀ p ∈ M.parents x,
            dget changed1 p = some (cfiFinalFlag M w1ce w0 p) := by
          intro p hp
          obtain ⟨b, hb⟩ := Option.isSome_iff_exists.mp
            ((dcontains_iff_isSome changed1 p).mp (hpall p hp))
          have := (hinv1.2.1 p b hb).2
          rw [hb, this]
        have hflt : ((M.parents x).filter (fun p => ! dcontains changed1 p)) = [] := by
          apply List.filter_eq_nil_iff.mpr
          intro p hp
          simp [hpall p hp]
        have hxnot1 : ¬ dcontains w1c1 x = true := by
          intro hcon
          exact hc1 (dcontains_of_dget_eq_some (hinv1.2.2.2.1 x hcon))
        have hpar_vals : ∀ p ∈ M.parents x,
            dget (dictOfKeys
              (fun p => if dget! changed1 p then dget! w1c1 p else dget! w0 p)
              (M.parents x) []) p = dget (cfiTruth M w1ce w0) p := by
          intro p hp
          rw [dget_dictOfKeys]
          simp only [hp, if_true]
          have hpn : p ∈ M.nodes := hWF.parents_mem x hx p hp
          have hbang : dget! changed1 p = cfiFinalFlag M w1ce w0 p := by
            rw [dget!, hpflags p hp]
            rfl
          cases hfp : cfiFinalFlag M w1ce w0 p with
          | true =>
            have hval : dget w1c1 p = dget (cfiTruth M w1ce w0) p :=
              hinv1.2.2.1 p (by rw [hpflags p hp, hfp])
            have hsome : dget (cfiTruth M w1ce w0) p =
                some (dget! (cfiTruth M w1ce w0) p) :=
              dget_eq_some_getD (hcovW1 p hpn)
            rw [hbang, hfp]
            simp only [if_true]
            rw [dget!, hval, hsome]
            simp
          | false =>
            have heq : dget (cfiTruth M w1ce w0) p = dget w0 p := by
              have : ¬ dget (cfiTruth M w1ce w0) p ≠ dget w0 p := by
                simpa [cfiFinalFlag] using hfp
              push_neg at this
              exact this
            have hsome : dget w0 p = some (dget! w0 p) :=
              dget_eq_some_getD (hcov0 p hpn)
            rw [hbang, hfp]
            simp only [Bool.false_eq_true, if_false]
            rw [heq, hsome]
        have hfun : M.functions x (dictOfKeys
            (fun p => if dget! changed1 p then dget! w1c1 p else dget! w0 p)
            (M.parents x) []) = M.functions x (cfiTruth M w1ce w0) :=
          hpure x hx _ _ hpar_vals
        have hvalW1 : dget (cfiTruth M w1ce w0) x =
            some (M.functions x (dictOfKeys
              (fun p => if dget! changed1 p then dget! w1c1 p else dget! w0 p)
              (M.parents x) [])) := by
          rw [hsats1.2.1 x hxendo, hfun]
        have hw0x : dget w0 x = some (dget! w0 x) :=
          dget_eq_some_getD (hcov0 x hx)
        cases hany : (M.parents x).any (fun p => dget! changed1 p) with
        | true =>
          obtain ⟨p, hp, hpb⟩ := List.any_eq_true.mp hany
          have hpsome : dget changed1 p = some true := by
            have := hpflags p hp
            have hfl : cfiFinalFlag M w1ce w0 p = true := by
              rw [dget!, this] at hpb
              simpa using hpb
            rw [this, hfl]
          by_cases hne : M.functions x (dictOfKeys
              (fun p => if dget! changed1 p then dget! w1c1 p else dget! w0 p)
              (M.parents x) []) ≠ dget! w0 x
          · have hflagT : cfiFinalFlag M w1ce w0 x = true := by
              simp only [cfiFinalFlag, decide_eq_true_eq]
              rw [hvalW1, hw0x]
              simp [hne]
            refine ⟨dinsert changed1 x true,
              dinsert w1c1 x (M.functions x (dictOfKeys
                (fun p => if dget! changed1 p then dget! w1c1 p else dget! w0 p)
                (M.parents x) [])), x :: log1, ?_, ?_, ?_, ?_, ?_, ?_⟩
            · intro fuel stack1
              rw [pcfiLoop]
              simp only [hc1, Bool.false_eq_true, if_false, hexoB]
              rw [hflt]
              simp only [List.isEmpty_nil, if_true]
              rw [hany]
              simp only [if_true]
              simp [hne]
            · apply PcfiInv_extend hinv1 hx hc1 hflagT.symm
              · intro _
                rw [dget_dinsert]
                simp [hvalW1]
              · intro hcontra
                simp at hcontra
              · intro u hxu
                rw [dget_dinsert]
                simp [hxu]
              · exact Or.inr ⟨rfl, hxendo, p, hp, hpsome⟩
            · intro u b hb
              rw [dget_dinsert]
              have : ¬ x = u := by
                intro he
                subst he
                exact hc1 (dcontains_of_dget_eq_some hb)
              simp [this, hb]
            · exact (dcontains_dinsert _ _ _ _).mpr (Or.inl rfl)
            · intro u hu
              rcases (dcontains_dinsert _ _ _ _).mp hu with h' | h'
              · exact Or.inr h'.symm
              · exact Or.inl h'
            · intro u hu
              rcases List.mem_cons.mp hu with h' | h'
              · exact Or.inr h'
              · exact Or.inl h'
          · push_neg at hne
            have hW1x : dget (cfiTruth M w1ce w0) x = dget w0 x := by
              rw [hvalW1, hw0x, hne]
            have hflagF : cfiFinalFlag M w1ce w0 x = false := by
              simp [cfiFinalFlag, hW1x]
            refine ⟨dinsert changed1 x false, w1c1, x :: log1, ?_, ?_, ?_, ?_, ?_, ?_⟩
            · intro fuel stack1
              rw [pcfiLoop]
              simp only [hc1, Bool.false_eq_true, if_false, hexoB]
              rw [hflt]
              simp only [List.isEmpty_nil, if_true]
              rw [hany]
              simp only [if_true]
              simp [hne]
            · apply PcfiInv_extend hinv1 hx hc1 hflagF.symm
              · intro hcontra
                simp at hcontra
              · intro _
                exact hxnot1
              · intro u _
                rfl
              · exact Or.inr ⟨rfl, hxendo, p, hp, hpsome⟩
            · intro u b hb
              rw [dget_dinsert]
              have : ¬ x = u := by
                intro he
                subst he
                exact hc1 (dcontains_of_dget_eq_some hb)
              simp [this, hb]
            · exact (dcontains_dinsert _ _ _ _).mpr (Or.inl rfl)
            · intro u hu
              rcases (dcontains_dinsert _ _ _ _).mp hu with h' | h'
              · exact Or.inr h'.symm
              · exact Or.inl h'
            · intro u hu
              rcases List.mem_cons.mp hu with h' | h'
              · exact Or.inr h'
              · exact Or.inl h'
        | false =>
          have hall : ∀ p ∈ M.parents x,
              dget (cfiTruth M w1ce w0) p = dget w0 p := by
            intro p hp
            have hfalse : dget! changed1 p = false := by
              have := List.any_eq_false.mp hany p hp
              simpa using this
            have hfl : cfiFinalFlag M w1ce w0 p = false := by
              rw [dget!, hpflags p hp] at hfalse
              simpa using hfalse
            have : ¬ dget (cfiTruth M w1ce w0) p ≠ dget w0 p := by
              simpa [cfiFinalFlag] using hfl
            push_neg at this
            exact this
          have hW1x : dget (cfiTruth M w1ce w0) x = dget w0 x :=
            cfi_endo_parents_eq hWF hpure hkeys0 hw0 hCsub hCnodup x hxendo hall
          have hflagF : cfiFinalFlag M w1ce w0 x = false := by
            simp [cfiFinalFlag, hW1x]
          refine ⟨dinsert changed1 x false, w1c1, log1, ?_, ?_, ?_, ?_, ?_, ?_⟩
          · intro fuel stack1
            rw [pcfiLoop]
            simp only [hc1, Bool.false_eq_true, if_false, hexoB]
            rw [hflt]
            simp only [List.isEmpty_nil, if_true]
            rw [hany]
            simp
          · apply PcfiInv_extend hinv1 hx hc1 hflagF.symm
            · intro hcontra
              simp at hcontra
            · intro _
              exact hxnot1
            · intro u _
              rfl
            · exact Or.inl rfl
          · intro u b hb
            rw [dget_dinsert]
            have : ¬ x = u := by
              intro he
              subst he
              exact hc1 (dcontains_of_dget_eq_some hb)
            simp [this, hb]
          · exact (dcontains_dinsert _ _ _ _).mpr (Or.inl rfl)
          · intro u hu
            rcases (dcontains_dinsert _ _ _ _).mp hu with h' | h'
            · exact Or.inr h'.symm
            · exact Or.inl h'
          · intro u hu
            exact Or.inl hu
      by_cases hall : ∀ p ∈ M.parents x, dcontains changed p = true
      · -- first visit already finds all parents classified
        obtain ⟨changed', w1c', log', htr, hinv', hpres, hcx, hdom, hlog⟩ :=
          computeStep changed w1c log hinv hc hall
        refine ⟨1, changed', w1c', log', one_le_consumeFuel _ h,
          fun fuel => htr fuel stack, hinv', hpres, hcx, ?_, ?_⟩
        · intro u hu
          rcases hdom u hu with h' | h'
          · exact Or.inl h'
          · exact Or.inr (h' ▸ Reaches.refl u)
        · intro u hu
          rcases hlog u hu with h' | h'
          · exact Or.inl h'
          · exact Or.inr (h' ▸ Reaches.refl u)
      · -- some parent unclassified: push the node back under its parents
        push_neg at hall
        obtain ⟨p0, hp0, hp0n⟩ := hall
        have hp0rank : M.rank p0 < M.rank x := hWF.parents_rank x hx p0 hp0
        obtain ⟨h', rfl⟩ : ∃ h', h = h' + 1 := ⟨h - 1, by omega⟩
        have hranklt : ∀ p ∈ M.parents x, M.rank p ≤ h' := by
          intro p hp
          have := hWF.parents_rank x hx p hp
          omega
        set unk := (M.parents x).filter (fun p => ! dcontains changed p) with hunk
        have hunkmem : ∀ q ∈ unk, q ∈ M.parents x := by
          intro q hq
          exact (List.mem_filter.mp (hunk ▸ hq)).1
        have hp0unk : p0 ∈ unk := by
          rw [hunk]
          exact List.mem_filter.mpr ⟨hp0, by simp [hp0n]⟩
        have hunkne : unk ≠ [] := by
          intro hnil
          rw [hnil] at hp0unk
          simp at hp0unk
        have hunkE : unk.isEmpty = false := by
          simpa [List.isEmpty_iff] using hunkne
        have step1 : ∀ fuel, pcfiLoop M w0 (fuel + 1) (x :: stack) changed w1c log =
            pcfiLoop M w0 fuel (unk.reverse ++ x :: stack) changed w1c log := by
          intro fuel
          rw [pcfiLoop]
          simp only [hc, Bool.false_eq_true, if_false, hexoB]
          rw [← hunk]
          simp [hunkE]
        have listCons : ∀ (l : List ν), (∀ q ∈ l, q ∈ M.nodes ∧ M.rank q ≤ h') →
            ∀ (changed1 : Assignment ν Bool) (w1c1 : Assignment ν α)
              (log1 stack1 : List ν), PcfiInv M w1ce w0 changed1 w1c1 log1 →
            ∃ n changed2 w1c2 log2,
              n ≤ l.length * consumeFuel M.nodes.length h' ∧
              (∀ fuel, pcfiLoop M w0 (fuel + n) (l ++ stack1) changed1 w1c1 log1 =
                pcfiLoop M w0 fuel stack1 changed2 w1c2 log2) ∧
              PcfiInv M w1ce w0 changed2 w1c2 log2 ∧
              (∀ u b, dget changed1 u = some b → dget changed2 u = some b) ∧
              (∀ q ∈ l, dcontains changed2 q = true) ∧
              (∀ u, dcontains changed2 u = true →
                dcontains changed1 u = true ∨ ∃ q ∈ l, Reaches M u q) ∧
              (∀ u, u ∈ log2 → u ∈ log1 ∨ ∃ q ∈ l, Reaches M u q) := by
          intro l
          induction l with
          | nil =>
            intro _ changed1 w1c1 log1 stack1 hinv1
            exact ⟨0, changed1, w1c1, log1, by simp, fun fuel => by simp, hinv1,
              fun u b hb => hb, by simp, fun u hu => Or.inl hu,
              fun u hu => Or.inl hu⟩
          | cons q lrest ihl =>
            intro hmem changed1 w1c1 log1 stack1 hinv1
            obtain ⟨n1, ca, wa, loga, hn1, htr1, hinva, hpresa, hconta, hdoma, hloga⟩ :=
              ih h' (by omega) q (hmem q (by simp)).1 (hmem q (by simp)).2
                changed1 w1c1 log1 (lrest ++ stack1) hinv1
            obtain ⟨n2, cb, wb, logb, hn2, htr2, hinvb, hpresb, hcontb, hdomb, hlogb⟩ :=
              ihl (fun r hr => hmem r (by simp [hr])) ca wa loga stack1 hinva
            refine ⟨n2 + n1, cb, wb, logb, ?_, ?_, hinvb, ?_, ?_, ?_, ?_⟩
            · have hsum : n2 + n1 ≤ lrest.length * consumeFuel M.nodes.length h' +
                  consumeFuel M.nodes.length h' := add_le_add hn2 hn1
              calc n2 + n1 ≤ lrest.length * consumeFuel M.nodes.length h' +
                  consumeFuel M.nodes.length h' := hsum
                _ = (q :: lrest).length * consumeFuel M.nodes.length h' := by
                  simp [List.length_cons]
                  ring
            · intro fuel
              have e : fuel + (n2 + n1) = (fuel + n2) + n1 := by omega
              rw [e, List.cons_append]
              exact (htr1 (fuel + n2)).trans (htr2 fuel)
            · intro u b hb
              exact hpresb u b (hpresa u b hb)
            · intro r hr
              rcases List.mem_cons.mp hr with h1 | h1
              · subst h1
                obtain ⟨b, hb⟩ := Option.isSome_iff_exists.mp
                  ((dcontains_iff_isSome ca r).mp hconta)
                exact dcontains_of_dget_eq_some (hpresb r b hb)
              · exact hcontb r h1
            · intro u hu
              rcases hdomb u hu with h1 | ⟨r, hr, hre⟩
              · rcases hdoma u h1 with h2 | h2
                · exact Or.inl h2
                · exact Or.inr ⟨q, by simp, h2⟩
              · exact Or.inr ⟨r, by simp [hr], hre⟩
            · intro u hu
              rcases hlogb u hu with h1 | ⟨r, hr, hre⟩
              · rcases hloga u h1 with h2 | h2
                · exact Or.inl h2
                · exact Or.inr ⟨q, by simp, h2⟩
              · exact Or.inr ⟨r, by simp [hr], hre⟩
        have hmemrev : ∀ q ∈ unk.reverse, q ∈ M.nodes ∧ M.rank q ≤ h' := by
          intro q hq
          have hqpar : q ∈ M.parents x := hunkmem q (List.mem_reverse.mp hq)
          exact ⟨hWF.parents_mem x hx q hqpar, hranklt q hqpar⟩
        obtain ⟨n1, changed1, w1c1, log1, hn1, htr1, hinv1, hpres1, hcont1,
          hdom1, hlog1⟩ :=
          listCons unk.reverse hmemrev changed w1c log (x :: stack) hinv
        have hxnot1 : ¬ dcontains changed1 x = true := by
          intro hcon
          rcases hdom1 x hcon with h1 | ⟨q, hq, hre⟩
          · exact hc h1
          · have hqpar : q ∈ M.parents x := hunkmem q (List.mem_reverse.mp hq)
            have hqn : q ∈ M.nodes := hWF.parents_mem x hx q hqpar
            have := (Reaches.rank_le hWF hre hqn).2
            have := hWF.parents_rank x hx q hqpar
            omega
        have hall1 : ∀ p ∈ M.parents x, dcontains changed1 p = true := by
          intro p hp
          by_cases hcp : dcontains changed p = true
          · obtain ⟨b, hb⟩ := Option.isSome_iff_exists.mp
              ((dcontains_iff_isSome changed p).mp hcp)
            exact dcontains_of_dget_eq_some (hpres1 p b hb)
          · apply hcont1
            rw [List.mem_reverse, hunk]
            exact List.mem_filter.mpr ⟨hp, by simp [hcp]⟩
        obtain ⟨changed2, w1c2, log2, htr2, hinv2, hpres2, hcx2, hdom2, hlog2⟩ :=
          computeStep changed1 w1c1 log1 hinv1 hxnot1 hall1
        have hunklen : unk.reverse.length ≤ M.nodes.length := by
          rw [List.length_reverse]
          have h1 : unk.length ≤ (M.parents x).length := by
            rw [hunk]
            exact List.length_filter_le _ _
          have h2 : (M.parents x).length ≤ M.nodes.length :=
            nodup_subset_length_le (hWF.parents_nodup x hx)
              (fun q hq => hWF.parents_mem x hx q hq)
          omega
        refine ⟨n1 + 2, changed2, w1c2, log2, ?_, ?_, hinv2, ?_, hcx2, ?_, ?_⟩
        · have hm : n1 ≤ M.nodes.length * consumeFuel M.nodes.length h' := by
            calc n1 ≤ unk.reverse.length * consumeFuel M.nodes.length h' := hn1
              _ ≤ M.nodes.length * consumeFuel M.nodes.length h' :=
                Nat.mul_le_mul_right _ hunklen
          rw [consumeFuel]
          omega
        · intro fuel
          have e : fuel + (n1 + 2) = (((fuel + 1) + n1) + 1) := by omega
          rw [e, step1 ((fuel + 1) + n1)]
          exact (htr1 (fuel + 1)).trans (htr2 fuel stack)
        · intro u b hb
          exact hpres2 u b (hpres1 u b hb)
        · intro u hu
          rcases hdom2 u hu with h1 | h1
          · rcases hdom1 u h1 with h2 | ⟨q, hq, hre⟩
            · exact Or.inl h2
            · exact Or.inr (Reaches.step (hunkmem q (List.mem_reverse.mp hq)) hre)
          · exact Or.inr (h1 ▸ Reaches.refl u)
        · intro u hu
          rcases hlog2 u hu with h1 | h1
          · rcases hlog1 u h1 with h2 | ⟨q, hq, hre⟩
            · exact Or.inl h2
            · exact Or.inr (Reaches.step (hunkmem q (List.mem_reverse.mp hq)) hre)
          · exact Or.inr (h1 ▸ Reaches.refl u)

theorem pcfi_consumeList [Inhabited α] {M : SFM ν α} (hWF : M.WF)
    (hpure : PureFns M) {w0exo w0 w1ce : Assignment ν α}
    (hkeys0 : keysEq w0exo M.exo_nodes = true)
    (hw0 : w0 = vfiLoop M M.topological_order w0exo)
    (hCsub : ∀ u ∈ dkeys w1ce, u ∈ M.exo_nodes) (hCnodup : NodupKeys w1ce) :
    ∀ (l : List ν), (∀ q ∈ l, q ∈ M.nodes) →
    ∀ (changed : Assignment ν Bool) (w1c : Assignment ν α) (log stack : List ν),
      PcfiInv M w1ce w0 changed w1c log →
    ∃ n changed2 w1c2 log2,
      n ≤ l.length * consumeFuel M.nodes.length M.topological_order.length ∧
      (∀ fuel, pcfiLoop M w0 (fuel + n) (l ++ stack) changed w1c log =
        pcfiLoop M w0 fuel stack changed2 w1c2 log2) ∧
      PcfiInv M w1ce w0 changed2 w1c2 log2 ∧
      (∀ u b, dget changed u = some b → dget changed2 u = some b) ∧
      (∀ q ∈ l, dcontains changed2 q = true) ∧
      (∀ u, u ∈ log2 → u ∈ log ∨ ∃ q ∈ l, Reaches M u q) := by
  intro l
  induction l with
  | nil =>
    intro _ changed w1c log stack hinv
    exact ⟨0, changed, w1c, log, by simp, fun fuel => by simp, hinv,
      fun u b hb => hb, by simp, fun u hu => Or.inl hu⟩
  | cons q lrest ihl =>
    intro hmem changed w1c log stack hinv
    obtain ⟨n1, ca, wa, loga, hn1, htr1, hinva, hpresa, hconta, _, hloga⟩ :=
      pcfi_consume hWF hpure hkeys0 hw0 hCsub hCnodup
        M.topological_order.length q (hmem q (by simp)) (lidx_le_length _ _)
        changed w1c log (lrest ++ stack) hinv
    obtain ⟨n2, cb, wb, logb, hn2, htr2, hinvb, hpresb, hcontb, hlogb⟩ :=
      ihl (fun r hr => hmem r (by simp [hr])) ca wa loga stack hinva
    refine ⟨n2 + n1, cb, wb, logb, ?_, ?_, hinvb, ?_, ?_, ?_⟩
    · have hsum : n2 + n1 ≤
          lrest.length * consumeFuel M.nodes.length M.topological_order.length +
          consumeFuel M.nodes.length M.topological_order.length :=
        add_le_add hn2 hn1
      calc n2 + n1 ≤ lrest.length *
            consumeFuel M.nodes.length M.topological_order.length +
            consumeFuel M.nodes.length M.topological_order.length := hsum
        _ = (q :: lrest).length *
            consumeFuel M.nodes.length M.topological_order.length := by
          simp [List.length_cons]
          ring
    · intro fuel
      have e : fuel + (n2 + n1) = (fuel + n2) + n1 := by omega
      rw [e, List.cons_append]
      exact (htr1 (fuel + n2)).trans (htr2 fuel)
    · intro u b hb
      exact hpresb u b (hpresa u b hb)
    · intro r hr
      rcases List.mem_cons.mp hr with h1 | h1
      · subst h1
        obtain ⟨b, hb⟩ := Option.isSome_iff_exists.mp
          ((dcontains_iff_isSome ca r).mp hconta)
        exact dcontains_of_dget_eq_some (hpresb r b hb)
      · exact hcontb r h1
    · intro u hu
      rcases hlogb u hu with h1 | ⟨r, hr, hre⟩
      · rcases hloga u h1 with h2 | h2
        · exact Or.inl h2
        · exact Or.inr ⟨q, by simp, h2⟩
      · exact Or.inr ⟨r, by simp [hr], hre⟩

theorem pcfi_init_inv [Inhabited α] {M : SFM ν α} (hWF : M.WF)
    (hpure : PureFns M) {w0exo w0 w1ce : Assignment ν α}
    (hkeys0 : keysEq w0exo M.exo_nodes = true)
    (hw0 : w0 = vfiLoop M M.topological_order w0exo)
    (hCsub : ∀ u ∈ dkeys w1ce, u ∈ M.exo_nodes) (hCnodup : NodupKeys w1ce) :
    PcfiInv M w1ce w0 (pcfiInitChanged w1ce w0) (pcfiInitW1c w1ce w0) [] := by
  have hexoflag := cfi_exo_flag_correct hWF hpure hkeys0 hw0 hCsub hCnodup
  have htruthexo := cfiTruth_exo_val hWF hpure hkeys0 hw0 hCsub hCnodup
  refine ⟨?_, ?_, ?_, ?_, List.nodup_nil, by simp⟩
  · intro u hu
    rw [dcontains, dget_pcfiInitChanged]
    simp [hu]
  · intro u b hb
    rw [dget_pcfiInitChanged] at hb
    by_cases hu : u ∈ dkeys w1ce
    · simp only [hu, if_true, Option.some_inj] at hb
      have hexo : u ∈ M.exo_nodes := hCsub u hu
      have hcon : dcontains w1ce u = true := (mem_dkeys_iff_dcontains w1ce u).mp hu
      refine ⟨((M.mem_exo_iff u).mp hexo).1, ?_⟩
      rw [← hexoflag u hexo]
      simp [cfiInitFlag, hcon, hb.symm]
    · simp [hu] at hb
  · intro u hu
    rw [dget_pcfiInitChanged] at hu
    by_cases hmem : u ∈ dkeys w1ce
    · simp only [hmem, if_true, Option.some_inj] at hu
      have hexo : u ∈ M.exo_nodes := hCsub u hmem
      have hcon : dcontains w1ce u = true := (mem_dkeys_iff_dcontains w1ce u).mp hmem
      have hsome : dget w1ce u = some (dget! w1ce u) := dget_eq_some_getD hcon
      have hne : dget! w1ce u ≠ dget! w0 u := by
        by_contra heq
        simp [heq] at hu
      rw [dget_pcfiInitW1c hCnodup, hsome]
      simp only [hne, ne_eq, not_false_iff, if_true]
      rw [htruthexo u hexo, hsome]
    · simp [hmem] at hu
  · intro u hu
    rw [dcontains, dget_pcfiInitW1c hCnodup] at hu
    cases hw : dget w1ce u with
    | none => simp [hw] at hu
    | some v =>
      rw [hw] at hu
      by_cases hne : v ≠ dget! w0 u
      · have hmem : u ∈ dkeys w1ce :=
          (mem_dkeys_iff_dcontains w1ce u).mpr (dcontains_of_dget_eq_some hw)
        rw [dget_pcfiInitChanged]
        simp only [hmem, if_true]
        have : dget! w1ce u = v := by simp [dget!, hw]
        simp [this, hne]
      · simp [hne] at hu

theorem pcfi_run [Inhabited α] {M : SFM ν α} (hWF : M.WF) (hpure : PureFns M)
    {w0exo w0 w1ce : Assignment ν α}
    (hkeys0 : keysEq w0exo M.exo_nodes = true)
    (hw0 : w0 = vfiLoop M M.topological_order w0exo)
    (hCsub : ∀ u ∈ dkeys w1ce, u ∈ M.exo_nodes) (hCnodup : NodupKeys w1ce)
    {T : List ν} (hT : ∀ t ∈ T, t ∈ M.nodes) :
    ∃ changedF w1cF log,
      pcfiLoop M w0 (pfuelBound M T) T (pcfiInitChanged w1ce w0)
        (pcfiInitW1c w1ce w0) [] = some (changedF, w1cF, log) ∧
      PcfiInv M w1ce w0 changedF w1cF log ∧
      (∀ t ∈ T, dcontains changedF t = true) ∧
      (∀ u ∈ log, ∃ t ∈ T, Reaches M u t) := by
  obtain ⟨n, changedF, w1cF, log, hn, htr, hinv, _, hcont, hlog⟩ :=
    pcfi_consumeList hWF hpure hkeys0 hw0 hCsub hCnodup T hT
      (pcfiInitChanged w1ce w0) (pcfiInitW1c w1ce w0) [] []
      (pcfi_init_inv hWF hpure hkeys0 hw0 hCsub hCnodup)
  have hfuel : pfuelBound M T = (pfuelBound M T - n) + n := by
    unfold pfuelBound
    omega
  refine ⟨changedF, w1cF, log, ?_, hinv, hcont, ?_⟩
  · rw [hfuel]
    have := htr (pfuelBound M T - n)
    rw [List.append_nil] at this
    rw [this, pcfiLoop_nil]
  · intro u hu
    rcases hlog u hu with h | h
    · simp at h
    · exact h

theorem pcfi_ok_full [Inhabited α] {M : SFM ν α} (hWF : M.WF) (hpure : PureFns M)
    {w0exo w0 w1ce : Assignment ν α}
    (hkeys0 : keysEq w0exo M.exo_nodes = true)
    (hw0 : w0 = vfiLoop M M.topological_order w0exo)
    (hCsub : ∀ u ∈ dkeys w1ce, u ∈ M.exo_nodes) (hCnodup : NodupKeys w1ce)
    {T : List ν} (hT : ∀ t ∈ T, t ∈ M.nodes) :
    ∃ res log, pcfi M w0 w1ce T = Except.ok (some (res, log)) ∧
      (∀ u, dget res u =
        if u ∈ T then dget (cfiTruth M w1ce w0) u else none) ∧
      log.Nodup ∧ (∀ u ∈ log, u ∈ M.endo_nodes ∧ ∃ t ∈ T, Reaches M u t) := by
  obtain ⟨changedF, w1cF, log, hloop, hinv, hcont, hclos⟩ :=
    pcfi_run hWF hpure hkeys0 hw0 hCsub hCnodup hT
  have hcovW1 : ∀ u ∈ M.nodes, dcontains (cfiTruth M w1ce w0) u = true := by
    intro u hu
    unfold cfiTruth
    exact vfiLoop_covers hWF hpure
      (cfi_keysEq_newExo hWF hpure hkeys0 hw0 hCsub hCnodup) u hu
  have hcov0 : ∀ u ∈ M.nodes, dcontains w0 u = true := by
    intro u hu
    rw [hw0]
    exact vfiLoop_covers hWF hpure hkeys0 u hu
  have hCcheck : ((dkeys w1ce).all (fun u => M.is_exo_node u)) = true := by
    simp only [List.all_eq_true, SFM.is_exo_node, decide_eq_true_eq]
    exact hCsub
  have hTcheck : (T.all fun u => decide (u ∈ M.nodes)) = true := by
    simp only [List.all_eq_true, decide_eq_true_eq]
    exact hT
  refine ⟨dictOfKeys
      (fun u => if dget! changedF u then dget! w1cF u else dget! w0 u) T [],
    log, ?_, ?_, hinv.2.2.2.2.1, ?_⟩
  · simp [pcfi, hWF.acyclic, hCcheck, hTcheck, hloop]
  · intro u
    rw [dget_dictOfKeys]
    by_cases hu : u ∈ T
    · simp only [hu, if_true]
      have hun : u ∈ M.nodes := hT u hu
      obtain ⟨b, hb⟩ := Option.isSome_iff_exists.mp
        ((dcontains_iff_isSome changedF u).mp (hcont u hu))
      have hbfinal : b = cfiFinalFlag M w1ce w0 u := (hinv.2.1 u b hb).2
      have hbang : dget! changedF u = b := by simp [dget!, hb]
      cases hfb : b with
      | true =>
        have hval : dget w1cF u = dget (cfiTruth M w1ce w0) u :=
          hinv.2.2.1 u (by rw [hb, hfb])
        have hsome : dget (cfiTruth M w1ce w0) u =
            some (dget! (cfiTruth M w1ce w0) u) :=
          dget_eq_some_getD (hcovW1 u hun)
        rw [hbang, hfb]
        simp only [if_true]
        rw [dget!, hval, hsome]
        simp
      | false =>
        have hflagF : cfiFinalFlag M w1ce w0 u = false := by rw [← hbfinal, hfb]
        have heq : dget (cfiTruth M w1ce w0) u = dget w0 u := by
          have : ¬ dget (cfiTruth M w1ce w0) u ≠ dget w0 u := by
            simpa [cfiFinalFlag] using hflagF
          push_neg at this
          exact this
        have hsome : dget w0 u = some (dget! w0 u) :=
          dget_eq_some_getD (hcov0 u hun)
        rw [hbang, hfb]
        simp only [Bool.false_eq_true, if_false]
        rw [heq, hsome]
    · simp [hu, dget]
  · intro u hu
    exact ⟨(hinv.2.2.2.2.2 u hu).2.1, hclos u hu⟩

/-- C3.  Delta-partial/delta equivalence: for an acyclic model with pure
deterministic node functions, a baseline produced by `vfi`, a
changed-root mapping whose keys are all roots, and any target subset of
the nodes, `partial_cfi` succeeds and returns exactly the restriction to
the targets of the total assignment returned by delta evaluation `cfi`
on the same baseline and change set. -/
theorem pcfi_restriction_equivalence [Inhabited α] {M : SFM ν α} (hWF : M.WF)
    (hpure : PureFns M) {w0exo w0 w1ce : Assignment ν α} {T : List ν}
    (hbase : vfi M w0exo = Except.ok w0)
    (hCsub : ∀ u ∈ dkeys w1ce, u ∈ M.exo_nodes) (hCnodup : NodupKeys w1ce)
    (hT : ∀ t ∈ T, t ∈ M.nodes) :
    ∃ w1 logc, cfi M w1ce w0 = Except.ok (w1, logc) ∧
      ∃ res logp, pcfi M w0 w1ce T = Except.ok (some (res, logp)) ∧
        ∀ u, dget res u = if u ∈ T then dget w1 u else none := by
  obtain ⟨hkeys0, hw0⟩ := vfi_ok_elim hbase
  obtain ⟨res, logp, hok, hres, _, _⟩ :=
    pcfi_ok_full hWF hpure hkeys0 hw0 hCsub hCnodup hT
  refine ⟨(cfiRun M w1ce w0).1, (cfiRun M w1ce w0).2.2,
    cfi_eq_ok hWF hkeys0 hw0 hpure hCsub, res, logp, hok, ?_⟩
  intro u
  rw [hres u, cfi_result_eq_truth hWF hpure hkeys0 hw0 hCsub hCnodup u]

/-- C8.  Ancestor-closure invariant of the backward-traversal
evaluators: for valid inputs, `partial_vfi` and `partial_cfi` succeed
and every node whose structural function they invoke (every node in the
invocation log) lies inside the ancestor closure of the target set —
the targets together with all nodes reachable by following edges
backward from them. -/
theorem backward_eval_ancestor_closure [Inhabited α] {M : SFM ν α} (hWF : M.WF)
    (hpure : PureFns M) {wexo w0exo w0 w1ce : Assignment ν α} {T : List ν}
    (hkeys : keysEq wexo M.exo_nodes = true)
    (hbase : vfi M w0exo = Except.ok w0)
    (hCsub : ∀ u ∈ dkeys w1ce, u ∈ M.exo_nodes) (hCnodup : NodupKeys w1ce)
    (hT : ∀ t ∈ T, t ∈ M.nodes) :
    (∃ res log, pvfi M wexo T = Except.ok (some (res, log)) ∧
      ∀ u ∈ log, ∃ t ∈ T, Reaches M u t) ∧
    (∃ res log, pcfi M w0 w1ce T = Except.ok (some (res, log)) ∧
      ∀ u ∈ log, ∃ t ∈ T, Reaches M u t) := by
  obtain ⟨hkeys0, hw0⟩ := vfi_ok_elim hbase
  constructor
  · obtain ⟨res, log, hok, _, _, hlog⟩ := pvfi_ok_full hWF hpure hkeys hT
    exact ⟨res, log, hok, fun u hu => (hlog u hu).2⟩
  · obtain ⟨res, log, hok, _, _, hlog⟩ :=
      pcfi_ok_full hWF hpure hkeys0 hw0 hCsub hCnodup hT
    exact ⟨res, log, hok, fun u hu => (hlog u hu).2⟩

/-- C9.  Termination and single evaluation: for a finite acyclic model
and valid inputs, the stack loops of `partial_vfi` and `partial_cfi`
terminate (the bounded-fuel embedding of the unbounded `while` loop
completes, returning `some`), and each node's structural function is
invoked at most once per call (the invocation log has no duplicates),
even though a node may be pushed onto the stack more than once. -/
theorem backward_eval_terminates_once [Inhabited α] {M : SFM ν α} (hWF : M.WF)
    (hpure : PureFns M) {wexo w0exo w0 w1ce : Assignment ν α} {T : List ν}
    (hkeys : keysEq wexo M.exo_nodes = true)
    (hbase : vfi M w0exo = Except.ok w0)
    (hCsub : ∀ u ∈ dkeys w1ce, u ∈ M.exo_nodes) (hCnodup : NodupKeys w1ce)
    (hT : ∀ t ∈ T, t ∈ M.nodes) :
    (∃ res log, pvfi M wexo T = Except.ok (some (res, log)) ∧ log.Nodup) ∧
    (∃ res log, pcfi M w0 w1ce T = Except.ok (some (res, log)) ∧ log.Nodup) := by
  obtain ⟨hkeys0, hw0⟩ := vfi_ok_elim hbase
  constructor
  · obtain ⟨res, log, hok, _, hnodup, _⟩ := pvfi_ok_full hWF hpure hkeys hT
    exact ⟨res, log, hok, hnodup⟩
  · obtain ⟨res, log, hok, _, hnodup, _⟩ :=
      pcfi_ok_full hWF hpure hkeys0 hw0 hCsub hCnodup hT
    exact ⟨res, log, hok, hnodup⟩

/-- C7.  Demotion to clean: in delta evaluation (`cfi`, state
`(w1, changed, log)` of `cfiRun`) and in delta-partial evaluation
(`partial_cfi`, state of `pcfiLoop`), a derived node whose recomputed
value equals its baseline value ends flagged clean (`some false`), and
any derived node all of whose parents end clean is never recomputed
(it is absent from the invocation log) and carries its baseline value.
The modulo-demotion scenario of the spec instantiates this (see the
witness). -/
theorem demotion_to_clean [Inhabited α] {M : SFM ν α} (hWF : M.WF)
    (hpure : PureFns M) {w0exo w0 w1ce : Assignment ν α} {T : List ν}
    (hbase : vfi M w0exo = Except.ok w0)
    (hCsub : ∀ u ∈ dkeys w1ce, u ∈ M.exo_nodes) (hCnodup : NodupKeys w1ce)
    (hT : ∀ t ∈ T, t ∈ M.nodes) :
    (∀ u ∈ (cfiRun M w1ce w0).2.2,
      dget (cfiRun M w1ce w0).1 u = dget w0 u →
      dget (cfiRun M w1ce w0).2.1 u = some false) ∧
    (∀ u ∈ M.endo_nodes,
      (∀ p ∈ M.parents u, dget (cfiRun M w1ce w0).2.1 p = some false) →
      u ∉ (cfiRun M w1ce w0).2.2 ∧ dget (cfiRun M w1ce w0).1 u = dget w0 u) ∧
    (∀ changedP w1cP logP,
      pcfiLoop M w0 (pfuelBound M T) T (pcfiInitChanged w1ce w0)
        (pcfiInitW1c w1ce w0) [] = some (changedP, w1cP, logP) →
      (∀ u ∈ logP, dget (cfiTruth M w1ce w0) u = dget w0 u →
        dget changedP u = some false) ∧
      (∀ u ∈ M.endo_nodes, dcontains changedP u = true →
        (∀ p ∈ M.parents u, dget changedP p = some false) →
        u ∉ logP ∧ dget changedP u = some false)) := by
  obtain ⟨hkeys0, hw0⟩ := vfi_ok_elim hbase
  have hinv := cfi_final_inv hWF hpure hkeys0 hw0 hCsub hCnodup
  have hmemA : ∀ u ∈ M.nodes, dget (cfiRun M w1ce w0).2.1 u =
      some (cfiFinalFlag M w1ce w0 u) := by
    intro u hu
    rw [hinv.1 u]
    simp [hu, hWF.nodes_sub u hu]
  have hmemB : ∀ u ∈ M.nodes, dget (cfiRun M w1ce w0).1 u =
      dget (cfiTruth M w1ce w0) u := by
    intro u hu
    rw [hinv.2.1 u]
    simp [hWF.nodes_sub u hu]
  refine ⟨?_, ?_, ?_⟩
  · intro u hu heq
    obtain ⟨_, huendo, _, _⟩ := hinv.2.2.2 u hu
    have hun : u ∈ M.nodes := ((M.mem_endo_iff u).mp huendo).1
    rw [hmemA u hun]
    have : dget (cfiTruth M w1ce w0) u = dget w0 u := by
      rw [← hmemB u hun]
      exact heq
    simp [cfiFinalFlag, this]
  · intro u huendo hpar
    have hun : u ∈ M.nodes := ((M.mem_endo_iff u).mp huendo).1
    have hparF : ∀ p ∈ M.parents u, cfiFinalFlag M w1ce w0 p = false := by
      intro p hp
      have hpn : p ∈ M.nodes := hWF.parents_mem u hun p hp
      have := hpar p hp
      rw [hmemA p hpn] at this
      simpa using this.symm
    have hpar_eq : ∀ p ∈ M.parents u,
        dget (cfiTruth M w1ce w0) p = dget w0 p := by
      intro p hp
      have : ¬ dget (cfiTruth M w1ce w0) p ≠ dget w0 p := by
        simpa [cfiFinalFlag] using hparF p hp
      push_neg at this
      exact this
    have htruth : dget (cfiTruth M w1ce w0) u = dget w0 u :=
      cfi_endo_parents_eq hWF hpure hkeys0 hw0 hCsub hCnodup u huendo hpar_eq
    constructor
    · intro hulog
      obtain ⟨_, _, _, p, hp, hpT⟩ := hinv.2.2.2 u hulog
      exact absurd hpT (by simp [hparF p hp])
    · rw [hmemB u hun, htruth]
  · intro changedP w1cP logP hloop
    obtain ⟨changedF, w1cF, logF, hloopF, hinvP, _, _⟩ :=
      pcfi_run hWF hpure hkeys0 hw0 hCsub hCnodup hT
    rw [hloopF] at hloop
    obtain ⟨he1, he2, he3⟩ : changedF = changedP ∧ w1cF = w1cP ∧ logF = logP := by
      have := Option.some.inj hloop
      exact ⟨congrArg Prod.fst this, congrArg (fun z => z.2.1) this,
        congrArg (fun z => z.2.2) this⟩
    subst he1
    subst he2
    subst he3
    constructor
    · intro u hu heq
      have hres : dcontains changedF u = true := (hinvP.2.2.2.2.2 u hu).1
      obtain ⟨b, hb⟩ := Option.isSome_iff_exists.mp
        ((dcontains_iff_isSome changedF u).mp hres)
      have hbf := (hinvP.2.1 u b hb).2
      rw [hb, hbf]
      simp [cfiFinalFlag, heq]
    · intro u huendo hres hpar
      have hun : u ∈ M.nodes := ((M.mem_endo_iff u).mp huendo).1
      have hparF : ∀ p ∈ M.parents u, cfiFinalFlag M w1ce w0 p = false := by
        intro p hp
        have := (hinvP.2.1 p false (hpar p hp)).2
        exact this.symm
      have hpar_eq : ∀ p ∈ M.parents u,
          dget (cfiTruth M w1ce w0) p = dget w0 p := by
        intro p hp
        have : ¬ dget (cfiTruth M w1ce w0) p ≠ dget w0 p := by
          simpa [cfiFinalFlag] using hparF p hp
        push_neg at this
        exact this
      have htruth : dget (cfiTruth M w1ce w0) u = dget w0 u :=
        cfi_endo_parents_eq hWF hpure hkeys0 hw0 hCsub hCnodup u huendo hpar_eq
      constructor
      · intro hulog
        obtain ⟨_, _, p, hp, hpsome⟩ := hinvP.2.2.2.2.2 u hulog
        have := hpar p hp
        rw [this] at hpsome
        exact absurd (Option.some.inj hpsome) (by simp)
      · obtain ⟨b, hb⟩ := Option.isSome_iff_exists.mp
          ((dcontains_iff_isSome changedF u).mp hres)
        have hbf := (hinvP.2.1 u b hb).2
        rw [hb, hbf]
        simp [cfiFinalFlag, htruth]

theorem mem_of_dget_eq_some {w : Assignment ν α} {k : ν} {v : α}
    (h : dget w k = some v) : (k, v) ∈ w := by
  induction w with
  | nil => simp [dget] at h
  | cons kv rest ih =>
    obtain ⟨k', v'⟩ := kv
    by_cases hk : k' = k
    · subst hk
      simp [dget] at h
      simp [h]
    · simp only [dget, hk, if_false] at h
      exact List.mem_cons_of_mem _ (ih h)

theorem NodupKeys_delta_decode {w0 : Assignment ν α} (h0 : NodupKeys w0)
    (c : Assignment ν α) : NodupKeys (delta_decode c w0) := by
  induction c generalizing w0 with
  | nil => simpa [delta_decode]
  | cons kv rest ih =>
    obtain ⟨k, v⟩ := kv
    exact ih (NodupKeys_dinsert h0 k v)

/-- C4 counterexample.  The second encode/decode inverse law fails for a
partial mapping `d` that is consistent with `w0`'s keys (its key set is
contained in `w0`'s) but repeats a baseline value: with
`w0 = d = [(0, 1)]`, decoding `d` over `w0` gives back `w0`, and
re-encoding against `w0` yields the empty delta, which differs from `d`
at key `0`. -/
theorem delta_encode_decode_counterexample :
    NodupKeys [((0 : Nat), (1 : Nat))] ∧
    (∀ k ∈ dkeys [((0 : Nat), (1 : Nat))], k ∈ dkeys [((0 : Nat), (1 : Nat))]) ∧
    dget (delta_encode
        (delta_decode [((0 : Nat), (1 : Nat))] [((0 : Nat), (1 : Nat))])
        [((0 : Nat), (1 : Nat))]) 0 ≠
      dget [((0 : Nat), (1 : Nat))] 0 := by
  refine ⟨?_, ?_, ?_⟩
  · simp [NodupKeys, dkeys]
  · decide
  · decide

/-- C4 (amended).  Encode/decode inverse laws:
`delta_decode (delta_encode w1 w0) w0 == w1` for total assignments over
the same key set, and `delta_encode (delta_decode d w0) w0 == d` for a
partial mapping `d` whose keys lie in `w0`'s key set and each of whose
entries differs from `w0`'s value at that key (a genuine delta; without
the value-difference condition the second law fails, see the
counterexample). -/
theorem delta_codec_inverse_amended {w1 w0 d : Assignment ν α}
    (hn1 : NodupKeys w1) (hn0 : NodupKeys w0) (hnd : NodupKeys d)
    (hsame : ∀ x, dcontains w1 x = dcontains w0 x)
    (hdkeys : ∀ k ∈ dkeys d, k ∈ dkeys w0)
    (hdiff : ∀ kv ∈ d, dget w0 kv.1 ≠ some kv.2) :
    (∀ x, dget (delta_decode (delta_encode w1 w0) w0) x = dget w1 x) ∧
    (∀ x, dget (delta_encode (delta_decode d w0) w0) x = dget d x) := by
  constructor
  · intro x
    rw [dget_delta_decode (NodupKeys_delta_encode hn1 w0),
      dget_delta_encode hn1]
    cases hv : dget w1 x with
    | none =>
      simp only []
      have : ¬ dcontains w0 x = true := by
        rw [← hsame x]
        simp [dcontains, hv]
      exact dget_eq_none_of_not_dcontains this
    | some v =>
      by_cases hw0 : dget w0 x = some v
      · simp [hw0, hv]
      · simp [hw0, hv]
  · intro x
    rw [dget_delta_encode (NodupKeys_delta_decode hn0 d),
      dget_delta_decode hnd]
    cases hd : dget d x with
    | none =>
      simp only []
      cases hw0 : dget w0 x with
      | none => simp
      | some u => simp [hw0]
    | some v =>
      have hne : dget w0 x ≠ some v := hdiff (x, v) (mem_of_dget_eq_some hd)
      simp [hne]

/-- C6 (amended).  Input-coverage errors: on an acyclic model, `vfi`
fails with `InputCoverageError` and returns no partial result whenever
the root input's key set is not exactly the root set (missing or extra
keys); `cfi` fails with `InputCoverageError` whenever the baseline
misses some graph node — but `cfi` checks only that the baseline covers
the node set, so extra baseline keys are accepted and a result is
returned (see the counterexample). -/
theorem coverage_error_amended [Inhabited α] {M : SFM ν α}
    (hacyc : M.is_directed_acyclic_graph = true) :
    (∀ wexo : Assignment ν α, ¬ keysEq wexo M.exo_nodes = true →
      vfi M wexo = Except.error SFMError.InputCoverageError) ∧
    (∀ w1ce w0 : Assignment ν α,
      ((dkeys w1ce).all (fun u => decide (u ∈ M.exo_nodes))) = true →
      ¬ (M.nodes.all (fun u => dcontains w0 u)) = true →
      cfi M w1ce w0 = Except.error SFMError.InputCoverageError) := by
  constructor
  · intro wexo hkeys
    simp [vfi, hacyc, hkeys]
  · intro w1ce w0 hc1 hc2
    simp [cfi, hacyc, hc1, hc2]

/-- The modulo-demotion model of the spec's demotion scenario: root `0`
(the spec's A), derived node `1 = 0 mod 2` (the spec's B), and derived
node `2 = 1 + 1` depending only on `1`. -/
def Mmod : SFM Nat Nat where
  nodes := [0, 1, 2]
  parents := fun u => if u = 1 then [0] else if u = 2 then [1] else []
  functions := fun u w => if u = 1 then dget! w 0 % 2
    else if u = 2 then dget! w 1 + 1 else 0
  topological_order := [0, 1, 2]
  is_directed_acyclic_graph := true

theorem Mmod_WF : Mmod.WF := by
  refine ⟨rfl, ?_, ?_, ?_, ?_, ?_, ?_, ?_⟩ <;> decide

theorem Mmod_pure : PureFns Mmod := by
  intro u hu w w' hagree
  have hu' : u = 0 ∨ u = 1 ∨ u = 2 := by
    simpa [Mmod] using hu
  rcases hu' with h | h | h <;> subst h
  · simp [Mmod]
  · have h0 := hagree 0 (by simp [Mmod])
    simp [Mmod, dget!, h0]
  · have h1 := hagree 1 (by simp [Mmod])
    simp [Mmod, dget!, h1]

/-- C6 counterexample.  A baseline containing an extra key (`5`, not a
graph node) is accepted by `cfi`, which returns a result instead of
reporting a coverage error: extra keys are not detected. -/
theorem cfi_extra_baseline_key_accepted :
    dcontains [((0 : Nat), (2 : Nat)), (1, 0), (2, 1), (5, 9)] 5 = true ∧
    (5 : Nat) ∉ Mmod.nodes ∧
    cfi Mmod [] [((0 : Nat), (2 : Nat)), (1, 0), (2, 1), (5, 9)] =
      Except.ok ([(0, 2), (1, 0), (2, 1)], []) := by
  refine ⟨by decide, by decide, by rfl⟩

theorem coverage_error_amended_witness :
    (Mmod.is_directed_acyclic_graph = true) ∧
    (¬ keysEq ([] : Assignment Nat Nat) Mmod.exo_nodes = true) ∧
    vfi Mmod ([] : Assignment Nat Nat) =
      Except.error SFMError.InputCoverageError ∧
    (¬ (Mmod.nodes.all (fun u => dcontains [((0 : Nat), (2 : Nat))] u)) = true) ∧
    cfi Mmod [] [((0 : Nat), (2 : Nat))] =
      Except.error SFMError.InputCoverageError := by
  refine ⟨rfl, by decide, ?_, by decide, ?_⟩
  · exact (coverage_error_amended rfl).1 [] (by decide)
  · exact (coverage_error_amended rfl).2 [] [((0 : Nat), (2 : Nat))]
      (by decide) (by decide)

/-- A two-chain model for the cost bound: roots `0` and `1`, derived
nodes `2` (child of `0`) and `3` (child of `1`); changing only root `0`
leaves `3` outside the reach of any changed root. -/
def Mtwo : SFM Nat Nat where
  nodes := [0, 1, 2, 3]
  parents := fun u => if u = 2 then [0] else if u = 3 then [1] else []
  functions := fun u w => if u = 2 then dget! w 0 + 1
    else if u = 3 then dget! w 1 + 1 else 0
  topological_order := [0, 1, 2, 3]
  is_directed_acyclic_graph := true

theorem Mtwo_WF : Mtwo.WF := by
  refine ⟨rfl, ?_, ?_, ?_, ?_, ?_, ?_, ?_⟩ <;> decide

theorem Mtwo_pure : PureFns Mtwo := by
  intro u hu w w' hagree
  have hu' : u = 0 ∨ u = 1 ∨ u = 2 ∨ u = 3 := by
    simpa [Mtwo] using hu
  rcases hu' with h | h | h | h <;> subst h
  · simp [Mtwo]
  · simp [Mtwo]
  · have h0 := hagree 0 (by simp [Mtwo])
    simp [Mtwo, dget!, h0]
  · have h1 := hagree 1 (by simp [Mtwo])
    simp [Mtwo, dget!, h1]

theorem cfi_delta_full_equivalence_witness :
    ∃ wnew, vfi Mmod (delta_decode [((0 : Nat), (4 : Nat))]
        (restrictExo Mmod [(0, 2), (1, 0), (2, 1)])) = Except.ok wnew ∧
      ∃ w1 log, cfi Mmod [((0 : Nat), (4 : Nat))] [(0, 2), (1, 0), (2, 1)] =
        Except.ok (w1, log) ∧ ∀ u, dget w1 u = dget wnew u := by
  have hbase : vfi Mmod [((0 : Nat), (2 : Nat))] =
      Except.ok [(0, 2), (1, 0), (2, 1)] := by rfl
  exact cfi_delta_full_equivalence Mmod_WF Mmod_pure hbase (by decide)
    (by simp [NodupKeys, dkeys])

theorem pvfi_restriction_equivalence_witness :
    ∃ W, vfi Mmod [((0 : Nat), (2 : Nat))] = Except.ok W ∧
      ∃ res log, pvfi Mmod [((0 : Nat), (2 : Nat))] [2] =
        Except.ok (some (res, log)) ∧
        ∀ u, dget res u = if u ∈ [2] then dget W u else none :=
  pvfi_restriction_equivalence Mmod_WF Mmod_pure (by decide) (by decide)

theorem pcfi_restriction_equivalence_witness :
    ∃ w1 logc, cfi Mmod [((0 : Nat), (4 : Nat))] [(0, 2), (1, 0), (2, 1)] =
        Except.ok (w1, logc) ∧
      ∃ res logp, pcfi Mmod [(0, 2), (1, 0), (2, 1)] [((0 : Nat), (4 : Nat))] [2] =
        Except.ok (some (res, logp)) ∧
        ∀ u, dget res u = if u ∈ [2] then dget w1 u else none := by
  have hbase : vfi Mmod [((0 : Nat), (2 : Nat))] =
      Except.ok [(0, 2), (1, 0), (2, 1)] := by rfl
  exact pcfi_restriction_equivalence Mmod_WF Mmod_pure hbase (by decide)
    (by simp [NodupKeys, dkeys]) (by decide)

theorem delta_codec_inverse_amended_witness :
    dget (delta_decode (delta_encode [((0 : Nat), (5 : Nat))] [(0, 7)])
      [(0, 7)]) 0 = dget [((0 : Nat), (5 : Nat))] 0 ∧
    dget (delta_encode (delta_decode [((0 : Nat), (9 : Nat))] [(0, 7)])
      [(0, 7)]) 0 = dget [((0 : Nat), (9 : Nat))] 0 := by
  have hn1 : NodupKeys [((0 : Nat), (5 : Nat))] := by simp [NodupKeys, dkeys]
  have hn0 : NodupKeys [((0 : Nat), (7 : Nat))] := by simp [NodupKeys, dkeys]
  have hnd : NodupKeys [((0 : Nat), (9 : Nat))] := by simp [NodupKeys, dkeys]
  have hsame : ∀ x : Nat, dcontains [((0 : Nat), (5 : Nat))] x =
      dcontains [((0 : Nat), (7 : Nat))] x := by
    intro x
    by_cases hx : (0 : Nat) = x <;> simp [dcontains, dget, hx]
  have hk : ∀ k ∈ dkeys [((0 : Nat), (9 : Nat))],
      k ∈ dkeys [((0 : Nat), (7 : Nat))] := by decide
  have hdiff : ∀ kv ∈ [((0 : Nat), (9 : Nat))],
      dget [((0 : Nat), (7 : Nat))] kv.1 ≠ some kv.2 := by decide
  have h := delta_codec_inverse_amended hn1 hn0 hnd hsame hk hdiff
  exact ⟨h.1 0, h.2 0⟩

theorem cfi_invocation_count_bound_witness :
    ∃ w1 log, cfi Mtwo [((0 : Nat), (5 : Nat))] [(0, 0), (1, 0), (2, 1), (3, 1)] =
        Except.ok (w1, log) ∧
      log.length ≤ Mtwo.endo_nodes.length ∧
      ((∃ r ∈ Mtwo.exo_nodes, r ∉ dkeys [((0 : Nat), (5 : Nat))]) →
        (∃ d ∈ Mtwo.endo_nodes,
          ∀ r ∈ dkeys [((0 : Nat), (5 : Nat))], ¬ Reaches Mtwo r d) →
        log.length < Mtwo.endo_nodes.length) := by
  have hbase : vfi Mtwo [((0 : Nat), (0 : Nat)), (1, 0)] =
      Except.ok [(0, 0), (1, 0), (2, 1), (3, 1)] := by rfl
  exact cfi_invocation_count_bound Mtwo_WF Mtwo_pure hbase (by decide)
    (by simp [NodupKeys, dkeys])

theorem demotion_to_clean_witness :
    (cfiRun Mmod [((0 : Nat), (4 : Nat))] [(0, 2), (1, 0), (2, 1)]).2.2 = [1] ∧
    dget (cfiRun Mmod [((0 : Nat), (4 : Nat))] [(0, 2), (1, 0), (2, 1)]).2.1 1 =
      some false ∧
    dget (cfiRun Mmod [((0 : Nat), (4 : Nat))] [(0, 2), (1, 0), (2, 1)]).1 1 =
      some 0 ∧
    2 ∉ (cfiRun Mmod [((0 : Nat), (4 : Nat))] [(0, 2), (1, 0), (2, 1)]).2.2 ∧
    dget (cfiRun Mmod [((0 : Nat), (4 : Nat))] [(0, 2), (1, 0), (2, 1)]).1 2 =
      dget [(0, 2), (1, 0), (2, 1)] 2 ∧
    pcfi Mmod [(0, 2), (1, 0), (2, 1)] [((0 : Nat), (4 : Nat))] [2] =
      Except.ok (some ([(2, 1)], [1])) ∧
    2 ∉ [1] ∧
    dget [((0 : Nat), true), (1, false), (2, false)] 2 = some false := by
  have hbase : vfi Mmod [((0 : Nat), (2 : Nat))] =
      Except.ok [(0, 2), (1, 0), (2, 1)] := by rfl
  have hCsub : ∀ u ∈ dkeys [((0 : Nat), (4 : Nat))], u ∈ Mmod.exo_nodes := by
    decide
  have hCnodup : NodupKeys [((0 : Nat), (4 : Nat))] := by
    simp [NodupKeys, dkeys]
  have h := demotion_to_clean (T := [2]) Mmod_WF Mmod_pure hbase hCsub hCnodup
    (by decide)
  have hdemote := h.1 1 (by decide) (by rfl)
  have hclean := h.2.1 2 (by decide) (by
    intro p hp
    have : p = 1 := by simpa [Mmod] using hp
    subst this
    exact hdemote)
  have hploop : pcfiLoop Mmod [(0, 2), (1, 0), (2, 1)]
      (pfuelBound Mmod [2]) [2] (pcfiInitChanged [((0 : Nat), (4 : Nat))]
        [(0, 2), (1, 0), (2, 1)]) (pcfiInitW1c [((0 : Nat), (4 : Nat))]
        [(0, 2), (1, 0), (2, 1)]) [] =
      some ([(0, true), (1, false), (2, false)], [(0, 4)], [1]) := by rfl
  have hp := (h.2.2 [((0 : Nat), true), (1, false), (2, false)] [(0, 4)] [1]
    hploop).2 2 (by decide) (by decide) (by
    intro p hp
    have : p = 1 := by simpa [Mmod] using hp
    subst this
    decide)
  exact ⟨by rfl, hdemote, by rfl, hclean.1, hclean.2, by rfl, hp.1, hp.2⟩

theorem backward_eval_ancestor_closure_witness :
    (∃ res log, pvfi Mmod [((0 : Nat), (4 : Nat))] [2] =
        Except.ok (some (res, log)) ∧
      ∀ u ∈ log, ∃ t ∈ [2], Reaches Mmod u t) ∧
    (∃ res log, pcfi Mmod [(0, 2), (1, 0), (2, 1)] [((0 : Nat), (4 : Nat))] [2] =
        Except.ok (some (res, log)) ∧
      ∀ u ∈ log, ∃ t ∈ [2], Reaches Mmod u t) := by
  have hbase : vfi Mmod [((0 : Nat), (2 : Nat))] =
      Except.ok [(0, 2), (1, 0), (2, 1)] := by rfl
  exact backward_eval_ancestor_closure Mmod_WF Mmod_pure (by decide) hbase
    (by decide) (by simp [NodupKeys, dkeys]) (by decide)

theorem backward_eval_terminates_once_witness :
    (∃ res log, pvfi Mmod [((0 : Nat), (4 : Nat))] [2] =
        Except.ok (some (res, log)) ∧ log.Nodup) ∧
    (∃ res log, pcfi Mmod [(0, 2), (1, 0), (2, 1)] [((0 : Nat), (4 : Nat))] [2] =
        Except.ok (some (res, log)) ∧ log.Nodup) := by
  have hbase : vfi Mmod [((0 : Nat), (2 : Nat))] =
      Except.ok [(0, 2), (1, 0), (2, 1)] := by rfl
  exact backward_eval_terminates_once Mmod_WF Mmod_pure (by decide) hbase
    (by decide) (by simp [NodupKeys, dkeys]) (by decide)
